import Mathlib

/-!
Verification of `src/biomappings/resources/__init__.py` (the biomappings
resources module): TSV tables of curated mappings and predictions, with
load / append / write / lint / deduplicate / filter operations.

Shallow embedding conventions:
* A file's content is the list of its lines, each line already split on the
  tab delimiter into its fields (`FileContent = List (List String)`).  Per the
  file format, field values contain no tabs and no newlines, so this is in
  bijection with the byte content of the file; two files are byte-identical
  iff their `FileContent`s are equal.  (The `csv` module's quote handling is
  not modelled: the format forbids values that would need quoting, and no
  claim depends on it.)
* A Python dict is an insertion-ordered association list; lookup follows
  Python semantics (a later binding of the same key overrides an earlier one).
* Every function that performs file I/O in Python takes the current content
  of the file(s) it reads as explicit arguments and returns the new content
  of the file it writes.  Python exceptions (`KeyError` on a missing dict
  key, `StopIteration` on an empty file) are modelled by `Option`: `none`
  means the operation raises and produces no (complete) result.  A `KeyError`
  raised in the middle of `_write_helper`'s print loop leaves a partial file
  in Python; the model returns `none` there, and no claim concerns the
  partial content of a failed write.
* Python's `sorted` is a stable sort; a stable sort with respect to a total
  preorder has a uniquely determined result, so the insertion sort
  `stableSort` below (which inserts each later element after all earlier
  elements whose key is `<=` its key) computes exactly the list `sorted`
  returns.
-/

/-- A row of a TSV file: the list of its tab-separated field values. -/
abbrev Row := List String

/-- A file's content: its lines, each already split on tabs. -/
abbrev FileContent := List Row

/-- A record: a Python dict from column name to string value. -/
abbrev Record := List (String × String)

/-- Python dict lookup on an insertion-ordered association list: the value of
the *last* binding of `key`, if any (later bindings override earlier ones). -/
def dictGet {β : Type} : List (String × β) → String → Option β
  | [], _ => none
  | (k, v) :: rest, key =>
    match dictGet rest key with
    | some w => some w
    | none => if k == key then some v else none

/-- `mappings.tsv` / `incorrect.tsv` / `unsure.tsv` column header. -/
def MAPPINGS_HEADER : List String :=
  ["source prefix", "source identifier", "source name", "relation",
   "target prefix", "target identifier", "target name", "type", "source"]

/-- `predictions.tsv` column header. -/
def PREDICTIONS_HEADER : List String :=
  ["source prefix", "source identifier", "source name", "relation",
   "target prefix", "target identifier", "target name", "type", "confidence",
   "source"]

/-- `Option`-valued map over a list: `none` as soon as `f` is `none` on some
element (models a Python loop that may raise). -/
def omap {α β : Type} (f : α → Option β) : List α → Option (List β)
  | [] => some []
  | a :: l =>
    match f a, omap f l with
    | some b, some bs => some (b :: bs)
    | _, _ => none

/-- `mapping_sort_key`: the 7-tuple of a record's "source prefix",
"source identifier", "relation", "target prefix", "target identifier",
"type" and "source" values, as a list.  `none` models the `KeyError` Python
raises when a field is missing. -/
def mapping_sort_key (prediction : Record) : Option (List String) :=
  omap (dictGet prediction)
    ["source prefix", "source identifier", "relation", "target prefix",
     "target identifier", "type", "source"]

/-- Modelled from the spec: `get_canonical_tuple` is imported from
`biomappings.utils`, which is not under `src/`.  Spec §3: the canonical key is
"a tuple (source prefix, source id, relation, target prefix, target id, type,
source) derived from a record", and §6's collaborator contract states the
canonicalization utility returns this 7-tuple for any record (mapping or
prediction dict). -/
def get_canonical_tuple (mapping : Record) : Option (List String) :=
  omap (dictGet mapping)
    ["source prefix", "source identifier", "relation", "target prefix",
     "target identifier", "type", "source"]

/-- Python `<` on strings: strict lexicographic comparison of the character
sequences by code point (`Char` comparison is by code point, as in Python). -/
def charListLT : List Char → List Char → Bool
  | [], [] => false
  | [], _ :: _ => true
  | _ :: _, [] => false
  | a :: as, b :: bs => if a < b then true else if b < a then false else charListLT as bs

/-- Python `<=` on equal-shape tuples of strings: lexicographic, element by
element, by code-point string comparison. -/
def strListLE : List String → List String → Bool
  | [], _ => true
  | _ :: _, [] => false
  | a :: as, b :: bs =>
    if charListLT a.data b.data then true
    else if charListLT b.data a.data then false
    else strListLE as bs

/-- Comparison of (sort key, payload) pairs by their key component only, the
way `sorted(..., key=...)` compares decorated elements. -/
def pairLE {α : Type} (p q : List String × α) : Bool :=
  strListLE p.1 q.1

/-- Insert `a` after every element `b` of `l` with `le b a` (i.e. after all
elements whose key does not exceed `a`'s): the insertion step of a stable
insertion sort. -/
def insertSorted {α : Type} (le : α → α → Bool) (a : α) : List α → List α
  | [] => [a]
  | b :: l => if le b a then b :: insertSorted le a l else a :: b :: l

/-- Stable sort (insertion sort, inserting later elements after equal earlier
ones).  Python's `sorted` is stable, and a stable sort with respect to a
total preorder is unique, so this computes exactly what `sorted` returns. -/
def stableSort {α : Type} (le : α → α → Bool) (l : List α) : List α :=
  l.foldl (fun acc a => insertSorted le a acc) []

/-- `sorted(lod, key=mapping_sort_key)`: decorate each record with its sort
key (raising if a key field is missing), stable-sort by the key, undecorate. -/
def sortRecords (lod : List Record) : Option (List Record) :=
  (omap (fun r => (mapping_sort_key r).map (fun k => (k, r))) lod).map
    (fun kp => (stableSort pairLE kp).map Prod.snd)

/-- `[line[k] for k in header]`: one output line of `_write_helper`.  `none`
models the `KeyError` on a record missing a header field. -/
def projectRecord (header : List String) (line : Record) : Option Row :=
  omap (dictGet line) header

/-- `_write_helper(header, lod, path, mode)`.  `path` is the current content
of the file at that path; the result is the file's new content.  Mode `"w"`
truncates and writes the header line first; any other mode (the code uses
`"a"`) appends the rows to the existing content.  The records are sorted by
`mapping_sort_key` before writing. -/
def _write_helper (header : List String) (lod : List Record) (path : FileContent)
    (mode : String) : Option FileContent := do
  let srt ← sortRecords lod
  let rows ← omap (projectRecord header) srt
  if mode == "w" then pure (header :: rows) else pure (path ++ rows)

/-- `_load_table`: the first line is the header; every further line becomes
the dict `dict(zip(header, row))` (`zip` truncates to the shorter of the
two).  `none` models the `StopIteration` raised by `next(reader)` on an empty
file.  Note there is no field-count check whatsoever. -/
def _load_table (fname : FileContent) : Option (List Record) :=
  match fname with
  | [] => none
  | header :: rows => some (rows.map (fun row => header.zip row))

/-- `load_mappings()`, reading the given content of `mappings.tsv`. -/
def load_mappings (mappingsFile : FileContent) : Option (List Record) :=
  _load_table mappingsFile

/-- `write_true_mappings(m)`: overwrite `mappings.tsv`. -/
def write_true_mappings (m : List Record) : Option FileContent :=
  _write_helper MAPPINGS_HEADER m [] "w"

/-- `append_true_mappings(m, sort)`: append to `mappings.tsv`; if `sort`,
reload the whole table, sort it, and rewrite it. -/
def append_true_mappings (mappingsFile : FileContent) (m : List Record)
    (sort : Bool) : Option FileContent := do
  let appended ← _write_helper MAPPINGS_HEADER m mappingsFile "a"
  if sort then do
    let recs ← load_mappings appended
    let srt ← sortRecords recs
    write_true_mappings srt
  else pure appended

/-- `lint_true_mappings()`: `write_true_mappings(sorted(load_mappings(), key=mapping_sort_key))`. -/
def lint_true_mappings (mappingsFile : FileContent) : Option FileContent := do
  let recs ← load_mappings mappingsFile
  let srt ← sortRecords recs
  write_true_mappings srt

/-- `load_predictions()`, reading the given content of `predictions.tsv`. -/
def load_predictions (predictionsFile : FileContent) : Option (List Record) :=
  _load_table predictionsFile

/-- `write_predictions(m)`: overwrite `predictions.tsv`. -/
def write_predictions (m : List Record) : Option FileContent :=
  _write_helper PREDICTIONS_HEADER m [] "w"

/-- The set of canonical tuples of all records in the true-mappings, the
false-mappings and the predictions tables (membership in this list is the
model of membership in the Python set `existing_mappings`). -/
def existingTuples (mappingsFile falseMappingsFile predictionsFile : FileContent) :
    Option (List (List String)) := do
  let trueRecs ← _load_table mappingsFile
  let falseRecs ← _load_table falseMappingsFile
  let predRecs ← _load_table predictionsFile
  omap get_canonical_tuple (trueRecs ++ falseRecs ++ predRecs)

/-- The generator `(m for m in mappings if get_canonical_tuple(m) not in
existing_mappings)`, materialized: keeps the records whose canonical tuple is
not in `existing`; raises (`none`) if a record's canonical tuple cannot be
computed. -/
def dedupFilter (existing : List (List String)) : List Record → Option (List Record)
  | [] => some []
  | m :: rest => do
    let k ← get_canonical_tuple m
    let tail ← dedupFilter existing rest
    pure (if existing.contains k then tail else m :: tail)

/-- `append_predictions(mappings, deduplicate, sort)`.  The three file
arguments are the current contents of `mappings.tsv`, `incorrect.tsv` and
`predictions.tsv`; the result is the new content of `predictions.tsv`. -/
def append_predictions (mappingsFile falseMappingsFile predictionsFile : FileContent)
    (mappings : List Record) (deduplicate : Bool) (sort : Bool) : Option FileContent := do
  let survivors ← if deduplicate then do
      let existing ← existingTuples mappingsFile falseMappingsFile predictionsFile
      dedupFilter existing mappings
    else pure mappings
  let appended ← _write_helper PREDICTIONS_HEADER survivors predictionsFile "a"
  if sort then do
    let recs ← load_predictions appended
    let srt ← sortRecords recs
    write_predictions srt
  else pure appended

/-- `lint_predictions()`: `write_predictions(sorted(load_predictions(), key=mapping_sort_key))`. -/
def lint_predictions (predictionsFile : FileContent) : Option FileContent := do
  let recs ← load_predictions predictionsFile
  let srt ← sortRecords recs
  write_predictions srt

/-- The 3-level custom filter of `filter_predictions`: source prefix →
target prefix → source identifier → excluded target identifier. -/
abbrev CustomFilter := List (String × List (String × List (String × String)))

/-- `custom_filter.get(sp, {}).get(tp, {}).get(si)`: best-effort nested
lookup; a missing key at any level yields `none`. -/
def filterEntry (custom_filter : CustomFilter) (sp tp si : String) : Option String :=
  dictGet ((dictGet ((dictGet custom_filter sp).getD []) tp).getD []) si

/-- `_check_filter(prediction, custom_filter)`: `True` (keep) iff the
prediction's target identifier differs from the filter's entry for its
(source prefix, target prefix, source identifier) triple; a missing entry
(`None`) always differs from a string.  `none` models the `KeyError` when the
prediction lacks one of the four fields read by direct indexing. -/
def _check_filter (prediction : Record) (custom_filter : CustomFilter) : Option Bool := do
  let sp ← dictGet prediction "source prefix"
  let tp ← dictGet prediction "target prefix"
  let si ← dictGet prediction "source identifier"
  let ti ← dictGet prediction "target identifier"
  pure (match filterEntry custom_filter sp tp si with
    | none => true
    | some v => ti != v)

/-- The list comprehension `[p for p in predictions if _check_filter(p, custom_filter)]`. -/
def keepFilter (custom_filter : CustomFilter) : List Record → Option (List Record)
  | [] => some []
  | p :: rest => do
    let b ← _check_filter p custom_filter
    let tail ← keepFilter custom_filter rest
    pure (if b then p :: tail else tail)

/-- `filter_predictions(custom_filter)`: reload the predictions table, keep
the records passing `_check_filter`, rewrite the whole table. -/
def filter_predictions (predictionsFile : FileContent) (custom_filter : CustomFilter) :
    Option FileContent := do
  let predictions ← _load_table predictionsFile
  let kept ← keepFilter custom_filter predictions
  write_predictions kept

/-- `MappingTuple`: the named tuple for curated mappings (nine string fields
in `MAPPINGS_HEADER` order). -/
structure MappingTuple where
  source_prefix : String
  source_id : String
  source_name : String
  relation : String
  target_prefix : String
  target_identifier : String
  target_name : String
  type : String
  source : String
  deriving DecidableEq

/-- `MappingTuple.as_dict`: `dict(zip(MAPPINGS_HEADER, self))`. -/
def MappingTuple.as_dict (t : MappingTuple) : Record :=
  match t with
  | ⟨a, b, c, d, e, f, g, h, i⟩ => MAPPINGS_HEADER.zip [a, b, c, d, e, f, g, h, i]

/-- `MappingTuple.from_dict`: `cls(*[mapping[key] for key in MAPPINGS_HEADER])`;
`none` models the `KeyError` on a missing column. -/
def MappingTuple.from_dict (mapping : Record) : Option MappingTuple := do
  let a ← dictGet mapping "source prefix"
  let b ← dictGet mapping "source identifier"
  let c ← dictGet mapping "source name"
  let d ← dictGet mapping "relation"
  let e ← dictGet mapping "target prefix"
  let f ← dictGet mapping "target identifier"
  let g ← dictGet mapping "target name"
  let h ← dictGet mapping "type"
  let i ← dictGet mapping "source"
  pure ⟨a, b, c, d, e, f, g, h, i⟩

/-- A value of a prediction record: a string for the eight descriptive fields
and the source, or the machine confidence.  The confidence's type `γ` is
abstracted: Python stores the float unchanged in the dict and reads it back
without any arithmetic, so the adapters are independent of float semantics
(instantiating `γ` with any type, including an IEEE float type, is sound for
the round-trip property). -/
inductive PValue (γ : Type) where
  | str (v : String)
  | conf (v : γ)
  deriving DecidableEq

/-- A prediction record as produced by `PredictionTuple.as_dict`: a dict from
column name to `PValue`. -/
abbrev PredRecord (γ : Type) := List (String × PValue γ)

/-- `PredictionTuple`: the named tuple for predictions (eight string fields,
a confidence of type `γ`, and the source, in `PREDICTIONS_HEADER` order). -/
structure PredictionTuple (γ : Type) where
  source_prefix : String
  source_id : String
  source_name : String
  relation : String
  target_prefix : String
  target_identifier : String
  target_name : String
  type : String
  confidence : γ
  source : String
  deriving DecidableEq

/-- `PredictionTuple.as_dict`: `dict(zip(PREDICTIONS_HEADER, self))`. -/
def PredictionTuple.as_dict {γ : Type} (t : PredictionTuple γ) : PredRecord γ :=
  match t with
  | ⟨a, b, c, d, e, f, g, h, cf, i⟩ =>
    PREDICTIONS_HEADER.zip
      [.str a, .str b, .str c, .str d, .str e, .str f, .str g, .str h, .conf cf, .str i]

/-- `PredictionTuple.from_dict`: `cls(*[mapping[key] for key in
PREDICTIONS_HEADER])`.  Python performs no type check on the looked-up
values; the model requires each slot to carry the declared kind of value
(which every `as_dict` output does) and fails otherwise. -/
def PredictionTuple.from_dict {γ : Type} (mapping : PredRecord γ) :
    Option (PredictionTuple γ) := do
  let .str a ← dictGet mapping "source prefix" | none
  let .str b ← dictGet mapping "source identifier" | none
  let .str c ← dictGet mapping "source name" | none
  let .str d ← dictGet mapping "relation" | none
  let .str e ← dictGet mapping "target prefix" | none
  let .str f ← dictGet mapping "target identifier" | none
  let .str g ← dictGet mapping "target name" | none
  let .str h ← dictGet mapping "type" | none
  let .conf cf ← dictGet mapping "confidence" | none
  let .str i ← dictGet mapping "source" | none
  pure ⟨a, b, c, d, e, f, g, h, cf, i⟩

/-- Consecutive non-decreasing comparison of a list of sort keys. -/
def chainLE : List (List String) → Bool
  | [] => true
  | [_] => true
  | a :: b :: rest => strListLE a b && chainLE (b :: rest)

/-- The record sequence of a table file is non-decreasing on canonical keys:
every line after the header, read back as a record against that header, has a
sort key, and consecutive keys are `<=` in the lexicographic order. -/
def fileRecordsSorted (f : FileContent) : Bool :=
  match f with
  | [] => true
  | header :: rows =>
    match omap (fun row => mapping_sort_key (header.zip row)) rows with
    | none => false
    | some ks => chainLE ks

/-- The keyed-row normal form of a write: each record's (sort key, projected
row) pair, in input order.  Used only in proofs, to state what
`_write_helper` produces. -/
def keyedRows (header : List String) (lod : List Record) :
    Option (List (List String × Row)) :=
  omap (fun r => (mapping_sort_key r).bind
    (fun k => (projectRecord header r).map (fun row => (k, row)))) lod

/-! ### Generic facts about the stable insertion sort -/

theorem charListLT_irrefl : ∀ x : List Char, charListLT x x = false := by
  intro x
  induction x with
  | nil => rfl
  | cons a as ih => simp [charListLT, lt_irrefl, ih]

theorem charListLT_connex : ∀ {x y : List Char}, charListLT x y = false →
    charListLT y x = false → x = y := by
  intro x
  induction x with
  | nil =>
    intro y hxy _
    cases y with
    | nil => rfl
    | cons b bs => simp [charListLT] at hxy
  | cons a as ih =>
    intro y hxy hyx
    cases y with
    | nil => simp [charListLT] at hyx
    | cons b bs =>
      by_cases hab : a < b
      · simp [charListLT, hab] at hxy
      · by_cases hba : b < a
        · simp [charListLT, hba] at hyx
        · have hab' : a = b := le_antisymm (not_lt.mp hba) (not_lt.mp hab)
          subst hab'
          have h1 : charListLT as bs = false := by
            simpa [charListLT, lt_irrefl] using hxy
          have h2 : charListLT bs as = false := by
            simpa [charListLT, lt_irrefl] using hyx
          rw [ih h1 h2]

theorem charListLT_trans : ∀ {x y z : List Char}, charListLT x y = true →
    charListLT y z = true → charListLT x z = true := by
  intro x
  induction x with
  | nil =>
    intro y z hxy hyz
    cases y with
    | nil => simp [charListLT] at hxy
    | cons b bs =>
      cases z with
      | nil => simp [charListLT] at hyz
      | cons c cs => rfl
  | cons a as ih =>
    intro y z hxy hyz
    cases y with
    | nil => simp [charListLT] at hxy
    | cons b bs =>
      cases z with
      | nil => simp [charListLT] at hyz
      | cons c cs =>
        by_cases hab : a < b
        · by_cases hbc : b < c
          · simp [charListLT, lt_trans hab hbc]
          · by_cases hcb : c < b
            · simp [charListLT, hbc, hcb] at hyz
            · have hb : b = c := le_antisymm (not_lt.mp hcb) (not_lt.mp hbc)
              subst hb
              simp [charListLT, hab]
        · by_cases hba : b < a
          · simp [charListLT, hab, hba] at hxy
          · have ha : a = b := le_antisymm (not_lt.mp hba) (not_lt.mp hab)
            subst ha
            have hxy' : charListLT as bs = true := by
              simpa [charListLT, lt_irrefl] using hxy
            by_cases hac : a < c
            · simp [charListLT, hac]
            · by_cases hca : c < a
              · simp [charListLT, hac, hca] at hyz
              · have ha' : a = c := le_antisymm (not_lt.mp hca) (not_lt.mp hac)
                subst ha'
                have hyz' : charListLT bs cs = true := by
                  simpa [charListLT, lt_irrefl] using hyz
                simp [charListLT, lt_irrefl, ih hxy' hyz']

theorem strListLE_total (a b : List String) :
    strListLE a b = true ∨ strListLE b a = true := by
  induction a generalizing b with
  | nil => left; rfl
  | cons x xs ih =>
    cases b with
    | nil => right; rfl
    | cons y ys =>
      cases hxy : charListLT x.data y.data with
      | true => left; simp [strListLE, hxy]
      | false =>
        cases hyx : charListLT y.data x.data with
        | true => right; simp [strListLE, hyx]
        | false =>
          rcases ih ys with h | h
          · left; simp [strListLE, hxy, hyx, h]
          · right; simp [strListLE, hxy, hyx, h]

theorem strListLE_trans {a b c : List String} (hab : strListLE a b = true)
    (hbc : strListLE b c = true) : strListLE a c = true := by
  induction a generalizing b c with
  | nil => rfl
  | cons x xs ih =>
    cases b with
    | nil => simp [strListLE] at hab
    | cons y ys =>
      cases c with
      | nil => simp [strListLE] at hbc
      | cons z zs =>
        by_cases hxy : charListLT x.data y.data = true
        · by_cases hyz : charListLT y.data z.data = true
          · simp [strListLE, charListLT_trans hxy hyz]
          · by_cases hzy : charListLT z.data y.data = true
            · simp [strListLE, hyz, hzy] at hbc
            · have hyzd : y.data = z.data :=
                charListLT_connex (by simpa using hyz) (by simpa using hzy)
              have hxz : charListLT x.data z.data = true := by
                rw [← hyzd]; exact hxy
              simp [strListLE, hxz]
        · by_cases hyx : charListLT y.data x.data = true
          · simp [strListLE, hxy, hyx] at hab
          · have hxyd : x.data = y.data :=
              charListLT_connex (by simpa using hxy) (by simpa using hyx)
            have hab' : strListLE xs ys = true := by
              simpa [strListLE, hxy, hyx] using hab
            by_cases hyz : charListLT y.data z.data = true
            · have hxz : charListLT x.data z.data = true := by
                rw [hxyd]; exact hyz
              simp [strListLE, hxz]
            · by_cases hzy : charListLT z.data y.data = true
              · simp [strListLE, hyz, hzy] at hbc
              · have hbc' : strListLE ys zs = true := by
                  simpa [strListLE, hyz, hzy] using hbc
                have h1 : charListLT x.data z.data = false := by
                  rw [hxyd]; simpa using hyz
                have h2 : charListLT z.data x.data = false := by
                  rw [hxyd]; simpa using hzy
                simp [strListLE, h1, h2, ih hab' hbc']

theorem pairLE_total {α : Type} (p q : List String × α) :
    pairLE p q = true ∨ pairLE q p = true :=
  strListLE_total p.1 q.1

theorem pairLE_trans {α : Type} {p q r : List String × α} (h₁ : pairLE p q = true)
    (h₂ : pairLE q r = true) : pairLE p r = true :=
  strListLE_trans h₁ h₂

theorem insertSorted_perm {α : Type} (le : α → α → Bool) (a : α) (l : List α) :
    (insertSorted le a l).Perm (a :: l) := by
  induction l with
  | nil => exact List.Perm.refl _
  | cons b t ih =>
    by_cases h : le b a = true
    · simp only [insertSorted, h, if_true]
      exact ((ih.cons b).trans (List.Perm.swap a b t))
    · simp only [insertSorted, h, if_false]
      exact List.Perm.refl _

theorem foldl_insertSorted_perm {α : Type} (le : α → α → Bool) (l : List α) :
    ∀ acc : List α,
      (l.foldl (fun acc a => insertSorted le a acc) acc).Perm (acc ++ l) := by
  induction l with
  | nil => intro acc; simp
  | cons a t ih =>
    intro acc
    have h₁ := ih (insertSorted le a acc)
    have h₂ : (insertSorted le a acc ++ t).Perm (acc ++ a :: t) := by
      have := (insertSorted_perm le a acc).append_right t
      exact this.trans (List.perm_middle.symm)
    exact (List.foldl_cons _ _ ▸ h₁).trans h₂

theorem stableSort_perm {α : Type} (le : α → α → Bool) (l : List α) :
    (stableSort le l).Perm l := by
  simpa using foldl_insertSorted_perm le l []

theorem insertSorted_pairwise {α : Type} {le : α → α → Bool}
    (htot : ∀ a b, le a b = true ∨ le b a = true)
    (htrans : ∀ a b c, le a b = true → le b c = true → le a c = true)
    (a : α) {l : List α} (hl : l.Pairwise (fun x y => le x y = true)) :
    (insertSorted le a l).Pairwise (fun x y => le x y = true) := by
  induction l with
  | nil => simp [insertSorted]
  | cons b t ih =>
    rcases List.pairwise_cons.mp hl with ⟨hb, ht⟩
    by_cases h : le b a = true
    · simp only [insertSorted, h, if_true]
      refine List.pairwise_cons.mpr ⟨?_, ih ht⟩
      intro y hy
      have hy' := (insertSorted_perm le a t).mem_iff.mp hy
      rcases List.mem_cons.mp hy' with hya | hyt
      · subst hya; exact h
      · exact hb y hyt
    · simp only [insertSorted, h, if_false]
      have hab : le a b = true := (htot a b).resolve_right (by simpa using h)
      refine List.pairwise_cons.mpr ⟨?_, hl⟩
      intro y hy
      rcases List.mem_cons.mp hy with hyb | hyt
      · subst hyb; exact hab
      · exact htrans a b y hab (hb y hyt)

theorem stableSort_pairwise {α : Type} {le : α → α → Bool}
    (htot : ∀ a b, le a b = true ∨ le b a = true)
    (htrans : ∀ a b c, le a b = true → le b c = true → le a c = true)
    (l : List α) :
    (stableSort le l).Pairwise (fun x y => le x y = true) := by
  suffices h : ∀ acc : List α, acc.Pairwise (fun x y => le x y = true) →
      (l.foldl (fun acc a => insertSorted le a acc) acc).Pairwise
        (fun x y => le x y = true) from h [] (by simp)
  induction l with
  | nil => intro acc hacc; simpa using hacc
  | cons a t ih =>
    intro acc hacc
    exact ih (insertSorted le a acc) (insertSorted_pairwise htot htrans a hacc)

theorem insertSorted_append_of_forall_le {α : Type} {le : α → α → Bool} (a : α)
    {l : List α} (h : ∀ x ∈ l, le x a = true) :
    insertSorted le a l = l ++ [a] := by
  induction l with
  | nil => rfl
  | cons b t ih =>
    have hb : le b a = true := h b (by simp)
    simp only [insertSorted, hb, if_true, List.cons_append]
    exact congrArg (b :: ·) (ih (fun x hx => h x (by simp [hx])))

theorem foldl_insertSorted_eq_append {α : Type} {le : α → α → Bool} :
    ∀ l acc : List α, (acc ++ l).Pairwise (fun x y => le x y = true) →
      l.foldl (fun acc a => insertSorted le a acc) acc = acc ++ l := by
  intro l
  induction l with
  | nil => intro acc _; simp
  | cons a t ih =>
    intro acc hacc
    have hins : insertSorted le a acc = acc ++ [a] := by
      refine insertSorted_append_of_forall_le a (fun x hx => ?_)
      exact (List.pairwise_append.mp hacc).2.2 x hx a (by simp)
    have h2 : ((acc ++ [a]) ++ t).Pairwise (fun x y => le x y = true) := by
      simpa using hacc
    simp only [List.foldl_cons, hins]
    rw [ih (acc ++ [a]) h2]
    simp

theorem stableSort_eq_self {α : Type} {le : α → α → Bool} {l : List α}
    (hl : l.Pairwise (fun x y => le x y = true)) : stableSort le l = l := by
  simpa using foldl_insertSorted_eq_append l [] (by simpa using hl)

theorem insertSorted_comm {α : Type} {le : α → α → Bool}
    (htot : ∀ a b, le a b = true ∨ le b a = true)
    (htrans : ∀ a b c, le a b = true → le b c = true → le a c = true)
    {a b : α} (hba : le b a = false) (l : List α) :
    insertSorted le a (insertSorted le b l) = insertSorted le b (insertSorted le a l) := by
  have hab : le a b = true := (htot a b).resolve_right (by simp [hba])
  induction l with
  | nil =>
    simp [insertSorted, hba, hab]
  | cons c t ih =>
    by_cases hca : le c a = true
    · have hcb : le c b = true := htrans c a b hca hab
      simp only [insertSorted, hca, hcb, if_true]
      exact congrArg (c :: ·) ih
    · have hca' : le c a = false := by simpa using hca
      by_cases hcb : le c b = true
      · simp [insertSorted, hca', hcb, hab]
      · have hcb' : le c b = false := by simpa using hcb
        simp [insertSorted, hca', hcb', hab, hba]

theorem insertSorted_split_sorted {α : Type} {le : α → α → Bool}
    (htrans : ∀ a b c, le a b = true → le b c = true → le a c = true)
    (y : α) {l : List α} (hl : l.Pairwise (fun x z => le x z = true)) :
    ∃ l₁ l₂, l = l₁ ++ l₂ ∧ insertSorted le y l = l₁ ++ y :: l₂ ∧
      ∀ x ∈ l₂, le x y = false := by
  induction l with
  | nil => exact ⟨[], [], rfl, rfl, by simp⟩
  | cons b t ih =>
    rcases List.pairwise_cons.mp hl with ⟨hb, ht⟩
    by_cases h : le b y = true
    · rcases ih ht with ⟨l₁, l₂, heq, hins, hgt⟩
      refine ⟨b :: l₁, l₂, by simp [heq], ?_, hgt⟩
      simp [insertSorted, h, hins]
    · have h' : le b y = false := by simpa using h
      refine ⟨[], b :: t, rfl, by simp [insertSorted, h'], ?_⟩
      intro x hx
      rcases List.mem_cons.mp hx with hxb | hxt
      · subst hxb; exact h'
      · by_contra hxy
        have hxy' : le x y = true := by simpa using hxy
        have : le b y = true := htrans b x y (hb x hxt) hxy'
        rw [h'] at this
        cases this

theorem foldl_insertSorted_of_forall_gt {α : Type} {le : α → α → Bool}
    (htot : ∀ a b, le a b = true ∨ le b a = true)
    (htrans : ∀ a b c, le a b = true → le b c = true → le a c = true)
    (y : α) :
    ∀ l₂ M : List α, (∀ x ∈ l₂, le x y = false) →
      l₂.foldl (fun acc a => insertSorted le a acc) (insertSorted le y M) =
        insertSorted le y (l₂.foldl (fun acc a => insertSorted le a acc) M) := by
  intro l₂
  induction l₂ with
  | nil => intro M _; rfl
  | cons z t ih =>
    intro M hgt
    have hz : le z y = false := hgt z (by simp)
    have hcomm : insertSorted le z (insertSorted le y M) =
        insertSorted le y (insertSorted le z M) :=
      (insertSorted_comm htot htrans hz M).symm
    simp only [List.foldl_cons, hcomm]
    exact ih (insertSorted le z M) (fun x hx => hgt x (by simp [hx]))

theorem foldl_insertSorted_stableSort {α : Type} {le : α → α → Bool}
    (htot : ∀ a b, le a b = true ∨ le b a = true)
    (htrans : ∀ a b c, le a b = true → le b c = true → le a c = true)
    (l : List α) :
    ∀ acc : List α, (stableSort le l).foldl (fun acc a => insertSorted le a acc) acc =
      l.foldl (fun acc a => insertSorted le a acc) acc := by
  induction l using List.reverseRecOn with
  | nil => intro acc; rfl
  | append_singleton l y ih =>
    intro acc
    have hsnoc : stableSort le (l ++ [y]) = insertSorted le y (stableSort le l) := by
      simp [stableSort, List.foldl_append]
    rcases insertSorted_split_sorted htrans y (stableSort_pairwise htot htrans l)
      with ⟨l₁, l₂, heq, hins, hgt⟩
    rw [hsnoc, hins]
    have hsplit : (l₁ ++ y :: l₂).foldl (fun acc a => insertSorted le a acc) acc =
        l₂.foldl (fun acc a => insertSorted le a acc)
          (insertSorted le y (l₁.foldl (fun acc a => insertSorted le a acc) acc)) := by
      simp [List.foldl_append]
    rw [hsplit, foldl_insertSorted_of_forall_gt htot htrans y l₂ _ hgt]
    have hjoin : l₂.foldl (fun acc a => insertSorted le a acc)
        (l₁.foldl (fun acc a => insertSorted le a acc) acc) =
        (l₁ ++ l₂).foldl (fun acc a => insertSorted le a acc) acc := by
      simp [List.foldl_append]
    rw [hjoin, ← heq, ih acc]
    simp [List.foldl_append]

theorem stableSort_append_stableSort {α : Type} {le : α → α → Bool}
    (htot : ∀ a b, le a b = true ∨ le b a = true)
    (htrans : ∀ a b c, le a b = true → le b c = true → le a c = true)
    (xs ys : List α) :
    stableSort le (xs ++ stableSort le ys) = stableSort le (xs ++ ys) := by
  have h1 : stableSort le (xs ++ stableSort le ys) =
      (stableSort le ys).foldl (fun acc a => insertSorted le a acc)
        (xs.foldl (fun acc a => insertSorted le a acc) []) := by
    simp [stableSort, List.foldl_append]
  have h2 : stableSort le (xs ++ ys) =
      ys.foldl (fun acc a => insertSorted le a acc)
        (xs.foldl (fun acc a => insertSorted le a acc) []) := by
    simp [stableSort, List.foldl_append]
  rw [h1, h2, foldl_insertSorted_stableSort htot htrans]

theorem insertSorted_forall₂ {α β : Type} {le : α → α → Bool} {le' : β → β → Bool}
    {R : α → β → Prop}
    (hR : ∀ p q, R p q → ∀ p' q', R p' q' → le p p' = le' q q')
    {a : α} {b : β} (hab : R a b) :
    ∀ {l : List α} {l' : List β}, List.Forall₂ R l l' →
      List.Forall₂ R (insertSorted le a l) (insertSorted le' b l') := by
  intro l l' h
  induction h with
  | nil => exact List.Forall₂.cons hab List.Forall₂.nil
  | cons hcd htail ih =>
    rename_i c d t t'
    have hcond : le c a = le' d b := hR c d hcd a b hab
    by_cases h : le c a = true
    · simp only [insertSorted, h, if_true, hcond ▸ h, ← hcond, if_true]
      exact List.Forall₂.cons hcd ih
    · have h' : le c a = false := by simpa using h
      have h'' : le' d b = false := hcond ▸ h'
      simp only [insertSorted, h', h'', Bool.false_eq_true, if_false]
      exact List.Forall₂.cons hab (List.Forall₂.cons hcd htail)

theorem stableSort_forall₂ {α β : Type} {le : α → α → Bool} {le' : β → β → Bool}
    {R : α → β → Prop}
    (hR : ∀ p q, R p q → ∀ p' q', R p' q' → le p p' = le' q q')
    {l : List α} {l' : List β} (h : List.Forall₂ R l l') :
    List.Forall₂ R (stableSort le l) (stableSort le' l') := by
  suffices hgen : ∀ {acc : List α} {acc' : List β}, List.Forall₂ R acc acc' →
      List.Forall₂ R (l.foldl (fun acc a => insertSorted le a acc) acc)
        (l'.foldl (fun acc b => insertSorted le' b acc) acc') from
    hgen List.Forall₂.nil
  induction h with
  | nil => intro acc acc' hacc; exact hacc
  | cons hcd htail ih =>
    intro acc acc' hacc
    exact ih (insertSorted_forall₂ hR hcd hacc)

/-! ### Facts about `omap`, `dictGet` and record projection -/

theorem omap_nil {α β : Type} (f : α → Option β) : omap f [] = some [] := rfl

theorem omap_cons_eq_some {α β : Type} {f : α → Option β} {a : α} {t : List α}
    {bl : List β} :
    omap f (a :: t) = some bl ↔
      ∃ b bs, f a = some b ∧ omap f t = some bs ∧ bl = b :: bs := by
  cases hfa : f a <;> cases ht : omap f t <;> simp [omap, hfa, ht]
  exact eq_comm

theorem omap_eq_some_iff {α β : Type} {f : α → Option β} :
    ∀ {l : List α} {l' : List β},
      omap f l = some l' ↔ List.Forall₂ (fun a b => f a = some b) l l' := by
  intro l
  induction l with
  | nil =>
    intro l'
    cases l' with
    | nil => simp [omap]
    | cons b t' => simp [omap]
  | cons a t ih =>
    intro l'
    cases l' with
    | nil =>
      constructor
      · intro h
        rcases omap_cons_eq_some.mp h with ⟨b, bs, _, _, hcons⟩
        cases hcons
      · intro h
        cases h
    | cons b' t' =>
      rw [List.forall₂_cons, omap_cons_eq_some]
      constructor
      · rintro ⟨b, bs, hb, hbs, hcons⟩
        obtain ⟨rfl, rfl⟩ : b' = b ∧ t' = bs := by
          simpa using hcons
        exact ⟨hb, ih.mp hbs⟩
      · rintro ⟨hb, htail⟩
        exact ⟨b', t', hb, ih.mpr htail, rfl⟩

theorem omap_eq_none_iff {α β : Type} {f : α → Option β} :
    ∀ {l : List α}, omap f l = none ↔ ∃ a ∈ l, f a = none := by
  intro l
  induction l with
  | nil => simp [omap]
  | cons a t ih =>
    cases hfa : f a with
    | none => simp [omap, hfa]
    | some b =>
      cases ht : omap f t with
      | none =>
        have hnone : omap f (a :: t) = none := by simp [omap, hfa, ht]
        rw [hnone]
        constructor
        · intro _
          rcases ih.mp ht with ⟨x, hx, hfx⟩
          exact ⟨x, List.mem_cons_of_mem a hx, hfx⟩
        · intro _; rfl
      | some bs =>
        have hsome : omap f (a :: t) = some (b :: bs) := by simp [omap, hfa, ht]
        rw [hsome]
        constructor
        · intro h; cases h
        · rintro ⟨x, hx, hfx⟩
          rcases List.mem_cons.mp hx with rfl | hxt
          · rw [hfa] at hfx; cases hfx
          · have hcontra : omap f t = none := ih.mpr ⟨x, hxt, hfx⟩
            rw [ht] at hcontra; cases hcontra

theorem omap_congr {α β : Type} {f g : α → Option β} :
    ∀ {l : List α}, (∀ a ∈ l, f a = g a) → omap f l = omap g l := by
  intro l
  induction l with
  | nil => intro _; rfl
  | cons a t ih =>
    intro h
    simp only [omap, h a (by simp), ih (fun x hx => h x (by simp [hx]))]

theorem omap_append {α β : Type} (f : α → Option β) :
    ∀ l₁ l₂ : List α, omap f (l₁ ++ l₂) =
      (omap f l₁).bind (fun b₁ => (omap f l₂).map (fun b₂ => b₁ ++ b₂)) := by
  intro l₁ l₂
  induction l₁ with
  | nil =>
    simp only [List.nil_append]
    cases h : omap f l₂ <;> simp [omap, h]
  | cons a t ih =>
    cases hfa : f a with
    | none => simp [omap, hfa]
    | some b =>
      cases ht : omap f t with
      | none =>
        have h2 : omap f (t ++ l₂) = none := by
          rw [ih, ht]; rfl
        simp [omap, hfa, ht, h2]
      | some bs =>
        cases hl₂ : omap f l₂ with
        | none =>
          have h2 : omap f (t ++ l₂) = none := by rw [ih, ht, hl₂]; rfl
          simp [omap, hfa, ht, hl₂, h2]
        | some cs =>
          have h2 : omap f (t ++ l₂) = some (bs ++ cs) := by rw [ih, ht, hl₂]; rfl
          simp [omap, hfa, ht, hl₂, h2]

theorem omap_map_of_forall₂ {α β γ : Type} {R : α → β → Prop} {f : α → γ}
    {g : β → Option γ} (hfg : ∀ a b, R a b → g b = some (f a)) :
    ∀ {l : List α} {l' : List β}, List.Forall₂ R l l' →
      omap g l' = some (l.map f) := by
  intro l l' h
  induction h with
  | nil => rfl
  | cons hab htail ih =>
    simp [omap, hfg _ _ hab, ih]

theorem forall₂_of_omap_omap {α β γ : Type} {f : α → Option β} {g : α → Option γ} :
    ∀ {l : List α} {l₁ : List β} {l₂ : List γ},
      omap f l = some l₁ → omap g l = some l₂ →
      List.Forall₂ (fun b c => ∃ a, a ∈ l ∧ f a = some b ∧ g a = some c) l₁ l₂ := by
  intro l
  induction l with
  | nil =>
    intro l₁ l₂ h₁ h₂
    cases h₁; cases h₂
    exact List.Forall₂.nil
  | cons a t ih =>
    intro l₁ l₂ h₁ h₂
    rcases omap_cons_eq_some.mp h₁ with ⟨b, bs, hb, hbs, rfl⟩
    rcases omap_cons_eq_some.mp h₂ with ⟨c, cs, hc, hcs, rfl⟩
    refine List.Forall₂.cons ⟨a, by simp, hb, hc⟩ ?_
    refine (ih hbs hcs).imp (fun x y hxy => ?_)
    rcases hxy with ⟨a', ha', hfa', hga'⟩
    exact ⟨a', by simp [ha'], hfa', hga'⟩

theorem forall₂_countP_eq {α β : Type} {R : α → β → Prop} {p : α → Bool} {q : β → Bool}
    (hpq : ∀ a b, R a b → p a = q b) :
    ∀ {l : List α} {l' : List β}, List.Forall₂ R l l' → l.countP p = l'.countP q := by
  intro l l' h
  induction h with
  | nil => rfl
  | cons hab htail ih =>
    simp only [List.countP_cons, hpq _ _ hab, ih]

theorem dictGet_zip_of_not_mem {β : Type} :
    ∀ {h : List String} {vs : List β} {c : String}, c ∉ h →
      dictGet (h.zip vs) c = none := by
  intro h
  induction h with
  | nil => intro vs c _; simp [dictGet]
  | cons x t ih =>
    intro vs c hc
    cases vs with
    | nil => simp [dictGet]
    | cons v vt =>
      have hct : c ∉ t := fun hmem => hc (by simp [hmem])
      have hcx : ¬(x == c) = true := by
        simp only [beq_iff_eq]
        intro hxc
        exact hc (by simp [hxc])
      rw [List.zip_cons_cons]
      simp only [dictGet]
      rw [ih hct]
      simp [hcx]

theorem projectRecord_mem_some {header : List String} {r : Record} :
    ∀ {row : Row}, projectRecord header r = some row →
      ∀ c ∈ header, ∃ v, dictGet r c = some v := by
  induction header with
  | nil => intro row _ c hc; cases hc
  | cons x t ih =>
    intro row hproj c hc
    rcases omap_cons_eq_some.mp hproj with ⟨v, vt, hv, hvt, rfl⟩
    rcases List.mem_cons.mp hc with rfl | hct
    · exact ⟨v, hv⟩
    · exact ih hvt c hct

theorem dictGet_zip_projectRecord {header : List String} {r : Record} :
    ∀ {row : Row}, header.Nodup → projectRecord header r = some row →
      ∀ c ∈ header, dictGet (header.zip row) c = dictGet r c := by
  induction header with
  | nil => intro row _ _ c hc; cases hc
  | cons x t ih =>
    intro row hnd hproj c hc
    rcases List.nodup_cons.mp hnd with ⟨hxt, hndt⟩
    rcases omap_cons_eq_some.mp hproj with ⟨v, vt, hv, hvt, rfl⟩
    rcases List.mem_cons.mp hc with rfl | hct
    · have hnone : dictGet (t.zip vt) c = none := dictGet_zip_of_not_mem hxt
      rw [List.zip_cons_cons]
      simp only [dictGet]
      rw [hnone, hv]
      simp
    · have hrec : dictGet (t.zip vt) c = dictGet r c := ih hndt hvt c hct
      rcases projectRecord_mem_some hvt c hct with ⟨w, hw⟩
      rw [List.zip_cons_cons]
      simp only [dictGet]
      rw [hrec, hw]

theorem projectRecord_zip_self {header : List String} {r : Record} {row : Row}
    (hnd : header.Nodup) (hproj : projectRecord header r = some row) :
    projectRecord header (header.zip row) = some row := by
  have hcongr : omap (dictGet (header.zip row)) header = omap (dictGet r) header :=
    omap_congr (dictGet_zip_projectRecord hnd hproj)
  calc projectRecord header (header.zip row)
      = omap (dictGet r) header := hcongr
    _ = some row := hproj

/-! ### Normal form of `_write_helper` -/

theorem forall₂_mem_left {α β : Type} {R : α → β → Prop} :
    ∀ {l : List α} {l' : List β}, List.Forall₂ R l l' →
      ∀ a ∈ l, ∃ b ∈ l', R a b := by
  intro l l' h
  induction h with
  | nil => intro a ha; cases ha
  | cons hab htail ih =>
    intro a ha
    rcases List.mem_cons.mp ha with rfl | hat
    · exact ⟨_, by simp, hab⟩
    · rcases ih a hat with ⟨b, hb, hR⟩
      exact ⟨b, by simp [hb], hR⟩

theorem forall₂_mem_right {α β : Type} {R : α → β → Prop} :
    ∀ {l : List α} {l' : List β}, List.Forall₂ R l l' →
      ∀ b ∈ l', ∃ a ∈ l, R a b := by
  intro l l' h
  induction h with
  | nil => intro b hb; cases hb
  | cons hab htail ih =>
    intro b hb
    rcases List.mem_cons.mp hb with rfl | hbt
    · exact ⟨_, by simp, hab⟩
    · rcases ih b hbt with ⟨a, ha, hR⟩
      exact ⟨a, by simp [ha], hR⟩

theorem omap_of_forall_mem {α β : Type} {f : α → Option β} {g : α → β} :
    ∀ {l : List α}, (∀ a ∈ l, f a = some (g a)) → omap f l = some (l.map g) := by
  intro l
  induction l with
  | nil => intro _; rfl
  | cons a t ih =>
    intro h
    simp [omap, h a (by simp), ih (fun x hx => h x (by simp [hx]))]

theorem keyfun_entry_eq_some {r : Record} {p : List String × Record} :
    (mapping_sort_key r).map (fun k => (k, r)) = some p ↔
      mapping_sort_key r = some p.1 ∧ p.2 = r := by
  cases p with
  | mk k₀ r₀ =>
    cases hk : mapping_sort_key r <;> simp [hk, eq_comm]

theorem keyed_entry_eq_some {h : List String} {r : Record} {q : List String × Row} :
    (mapping_sort_key r).bind (fun k => (projectRecord h r).map (fun row => (k, row))) =
        some q ↔
      mapping_sort_key r = some q.1 ∧ projectRecord h r = some q.2 := by
  cases q with
  | mk k₀ row₀ =>
    cases hk : mapping_sort_key r <;> cases hp : projectRecord h r <;>
      simp [hk, hp, eq_comm]

theorem keyedRows_eq_some_iff {h : List String} {lod : List Record}
    {kr : List (List String × Row)} :
    keyedRows h lod = some kr ↔
      List.Forall₂ (fun r q => mapping_sort_key r = some q.1 ∧
        projectRecord h r = some q.2) lod kr := by
  rw [keyedRows, omap_eq_some_iff]
  constructor
  · intro hf; exact hf.imp (fun r q => keyed_entry_eq_some.mp)
  · intro hf; exact hf.imp (fun r q => keyed_entry_eq_some.mpr)

theorem omap_proj_map_snd {h : List String} :
    ∀ {l : List (List String × Record)} {l' : List (List String × Row)},
      List.Forall₂ (fun p q => projectRecord h p.2 = some q.2) l l' →
      omap (projectRecord h) (l.map Prod.snd) = some (l'.map Prod.snd) := by
  intro l l' hf
  induction hf with
  | nil => rfl
  | cons hpq htail ih =>
    simp [omap, hpq, ih]

theorem map_snd_of_keyfun_forall₂ {lod : List Record} {kp : List (List String × Record)}
    (hF : List.Forall₂ (fun r p => mapping_sort_key r = some p.1 ∧ p.2 = r) lod kp) :
    kp.map Prod.snd = lod := by
  induction hF with
  | nil => rfl
  | cons hp htail ih =>
    simp [hp.2, ih]

theorem write_helper_eq_keyed (h : List String) (lod : List Record)
    (path : FileContent) (mode : String) :
    _write_helper h lod path mode =
      (keyedRows h lod).map (fun kr =>
        if mode == "w" then h :: (stableSort pairLE kr).map Prod.snd
        else path ++ (stableSort pairLE kr).map Prod.snd) := by
  cases hkp : omap (fun r => (mapping_sort_key r).map (fun k => (k, r))) lod with
  | none =>
    have hs : sortRecords lod = none := by simp [sortRecords, hkp]
    have hknone : keyedRows h lod = none := by
      rcases omap_eq_none_iff.mp hkp with ⟨r, hr, hfr⟩
      have hmk : mapping_sort_key r = none := by
        cases hmk' : mapping_sort_key r with
        | none => rfl
        | some k => rw [hmk'] at hfr; cases hfr
      rw [keyedRows]
      exact omap_eq_none_iff.mpr ⟨r, hr, by simp [hmk]⟩
    simp [_write_helper, hs, hknone]
  | some kp =>
    have hs : sortRecords lod = some ((stableSort pairLE kp).map Prod.snd) := by
      simp [sortRecords, hkp]
    have hF1 : List.Forall₂ (fun r p => mapping_sort_key r = some p.1 ∧ p.2 = r) lod kp :=
      (omap_eq_some_iff.mp hkp).imp (fun r p => keyfun_entry_eq_some.mp)
    cases hkr : keyedRows h lod with
    | none =>
      rcases omap_eq_none_iff.mp (by rw [keyedRows] at hkr; exact hkr)
        with ⟨r, hr, hfr⟩
      rcases forall₂_mem_left hF1 r hr with ⟨p, _, hkey, _⟩
      have hproj : projectRecord h r = none := by
        cases hp : projectRecord h r with
        | none => rfl
        | some row => rw [hkey, hp] at hfr; cases hfr
      have hrmem : r ∈ (stableSort pairLE kp).map Prod.snd := by
        have hrl : r ∈ kp.map Prod.snd := by rw [map_snd_of_keyfun_forall₂ hF1]; exact hr
        rcases List.mem_map.mp hrl with ⟨p', hp', hpr⟩
        exact List.mem_map.mpr ⟨p', (stableSort_perm pairLE kp).mem_iff.mpr hp', hpr⟩
      have hrows : omap (projectRecord h) ((stableSort pairLE kp).map Prod.snd) = none :=
        omap_eq_none_iff.mpr ⟨r, hrmem, hproj⟩
      simp [_write_helper, hs, hrows, hkr]
    | some kr =>
      have hF2 : List.Forall₂ (fun (p : List String × Record) (q : List String × Row) =>
          p.1 = q.1 ∧ projectRecord h p.2 = some q.2) kp kr := by
        have hcomp := forall₂_of_omap_omap hkp (by rw [keyedRows] at hkr; exact hkr)
        refine hcomp.imp (fun p q hpq => ?_)
        rcases hpq with ⟨r, _, hfp, hfq⟩
        rcases keyfun_entry_eq_some.mp hfp with ⟨hk, hr⟩
        rcases keyed_entry_eq_some.mp hfq with ⟨hk', hp'⟩
        refine ⟨?_, ?_⟩
        · rw [hk] at hk'
          exact Option.some_inj.mp hk'
        · rw [hr]; exact hp'
      have hSorted : List.Forall₂ (fun (p : List String × Record) (q : List String × Row) =>
          p.1 = q.1 ∧ projectRecord h p.2 = some q.2)
          (stableSort pairLE kp) (stableSort pairLE kr) := by
        refine stableSort_forall₂ ?_ hF2
        intro p q hpq p' q' hpq'
        simp only [pairLE, hpq.1, hpq'.1]
      have hrows : omap (projectRecord h) ((stableSort pairLE kp).map Prod.snd) =
          some ((stableSort pairLE kr).map Prod.snd) :=
        omap_proj_map_snd (hSorted.imp (fun p q hpq => hpq.2))
      simp only [_write_helper, hs, hrows, hkr, Option.some_bind, Option.map_some']
      split <;> simp [hrows]

/-! ### Reload and sortedness lemmas -/

theorem omap_map_general {α β γ : Type} {f : β → Option γ} {g : α → β} {g' : α → γ} :
    ∀ {l : List α}, (∀ a ∈ l, f (g a) = some (g' a)) →
      omap f (l.map g) = some (l.map g') := by
  intro l
  induction l with
  | nil => intro _; rfl
  | cons a t ih =>
    intro hmem
    simp [omap, hmem a (by simp), ih (fun x hx => hmem x (by simp [hx]))]

theorem mapping_sort_key_zip {h : List String} {r : Record} {row : Row}
    (hnd : h.Nodup)
    (hsub : ∀ c ∈ ["source prefix", "source identifier", "relation", "target prefix",
      "target identifier", "type", "source"], c ∈ h)
    (hproj : projectRecord h r = some row) :
    mapping_sort_key (h.zip row) = mapping_sort_key r := by
  simp only [mapping_sort_key]
  exact omap_congr (fun c hc => dictGet_zip_projectRecord hnd hproj c (hsub c hc))

theorem chainLE_of_pairwise : ∀ {ks : List (List String)},
    ks.Pairwise (fun a b => strListLE a b = true) → chainLE ks = true := by
  intro ks
  induction ks with
  | nil => intro _; rfl
  | cons a t ih =>
    intro hp
    rcases List.pairwise_cons.mp hp with ⟨ha, ht⟩
    cases t with
    | nil => rfl
    | cons b rest =>
      simp only [chainLE, Bool.and_eq_true]
      exact ⟨ha b (by simp), ih ht⟩

theorem sortRecords_eq_some_inv {lod srt : List Record}
    (h : sortRecords lod = some srt) :
    ∃ kp, omap (fun r => (mapping_sort_key r).map (fun k => (k, r))) lod = some kp ∧
      srt = (stableSort pairLE kp).map Prod.snd := by
  cases hkp : omap (fun r => (mapping_sort_key r).map (fun k => (k, r))) lod with
  | none => rw [sortRecords, hkp] at h; cases h
  | some kp =>
    rw [sortRecords, hkp] at h
    exact ⟨kp, rfl, (Option.some_inj.mp h).symm⟩

theorem write_helper_some_inv {h : List String} {lod : List Record}
    {path : FileContent} {mode : String} {f : FileContent}
    (hw : _write_helper h lod path mode = some f) :
    ∃ kr, keyedRows h lod = some kr ∧
      f = (if mode == "w" then h :: (stableSort pairLE kr).map Prod.snd
           else path ++ (stableSort pairLE kr).map Prod.snd) := by
  rw [write_helper_eq_keyed] at hw
  cases hkr : keyedRows h lod with
  | none => rw [hkr] at hw; cases hw
  | some kr =>
    rw [hkr] at hw
    exact ⟨kr, rfl, (Option.some_inj.mp hw).symm⟩

theorem keyedRows_mem_witness {h : List String} {lod : List Record}
    {kr : List (List String × Row)} (hk : keyedRows h lod = some kr) :
    ∀ q ∈ kr, ∃ r ∈ lod, mapping_sort_key r = some q.1 ∧
      projectRecord h r = some q.2 :=
  forall₂_mem_right (keyedRows_eq_some_iff.mp hk)

theorem write_w_fileRecordsSorted {h : List String} {lod : List Record}
    {path : FileContent} {f : FileContent}
    (hnd : h.Nodup)
    (hsub : ∀ c ∈ ["source prefix", "source identifier", "relation", "target prefix",
      "target identifier", "type", "source"], c ∈ h)
    (hw : _write_helper h lod path "w" = some f) :
    fileRecordsSorted f = true := by
  rcases write_helper_some_inv hw with ⟨kr, hkr, hf⟩
  have hf' : f = h :: (stableSort pairLE kr).map Prod.snd := by simpa using hf
  subst hf'
  have hwitness : ∀ q ∈ stableSort pairLE kr,
      mapping_sort_key (h.zip q.2) = some q.1 := by
    intro q hq
    have hqkr : q ∈ kr := (stableSort_perm pairLE kr).mem_iff.mp hq
    rcases keyedRows_mem_witness hkr q hqkr with ⟨r, _, hkey, hproj⟩
    rw [mapping_sort_key_zip hnd hsub hproj]
    exact hkey
  have hkeys : omap (fun row => mapping_sort_key (h.zip row))
      ((stableSort pairLE kr).map Prod.snd) =
      some ((stableSort pairLE kr).map Prod.fst) :=
    omap_map_general hwitness
  have hpw : ((stableSort pairLE kr).map Prod.fst).Pairwise
      (fun a b => strListLE a b = true) := by
    have := stableSort_pairwise pairLE_total (fun a b c => pairLE_trans) kr
    exact List.pairwise_map.mpr this
  simp [fileRecordsSorted, hkeys, chainLE_of_pairwise hpw]

theorem lint_true_mappings_eq_bind (f : FileContent) :
    lint_true_mappings f = (_load_table f).bind (fun recs =>
      (sortRecords recs).bind (fun srt => _write_helper MAPPINGS_HEADER srt [] "w")) := rfl

theorem lint_predictions_eq_bind (f : FileContent) :
    lint_predictions f = (_load_table f).bind (fun recs =>
      (sortRecords recs).bind (fun srt => _write_helper PREDICTIONS_HEADER srt [] "w")) := rfl

theorem relint_fix {h : List String} (hnd : h.Nodup)
    (hsub : ∀ c ∈ ["source prefix", "source identifier", "relation", "target prefix",
      "target identifier", "type", "source"], c ∈ h) {f f₁ : FileContent}
    (h1 : (_load_table f).bind (fun recs => (sortRecords recs).bind
      (fun srt => _write_helper h srt [] "w")) = some f₁) :
    (_load_table f₁).bind (fun recs => (sortRecords recs).bind
      (fun srt => _write_helper h srt [] "w")) = some f₁ := by
  rcases Option.bind_eq_some.mp h1 with ⟨recs, hload, h2⟩
  rcases Option.bind_eq_some.mp h2 with ⟨srt, hsort, hw⟩
  rcases write_helper_some_inv hw with ⟨kr, hkr, hf⟩
  have hf' : f₁ = h :: (stableSort pairLE kr).map Prod.snd := by simpa using hf
  subst hf'
  have hwit : ∀ q ∈ stableSort pairLE kr, ∃ r, mapping_sort_key r = some q.1 ∧
      projectRecord h r = some q.2 := by
    intro q hq
    rcases keyedRows_mem_witness hkr q ((stableSort_perm pairLE kr).mem_iff.mp hq)
      with ⟨r, _, hkey, hproj⟩
    exact ⟨r, hkey, hproj⟩
  have hLpw : (stableSort pairLE kr).Pairwise (fun p q => pairLE p q = true) :=
    stableSort_pairwise pairLE_total (fun a b c => pairLE_trans) kr
  have hkeyq : ∀ q ∈ stableSort pairLE kr,
      mapping_sort_key (h.zip q.2) = some q.1 := by
    intro q hq
    rcases hwit q hq with ⟨r, hkey, hproj⟩
    rw [mapping_sort_key_zip hnd hsub hproj]
    exact hkey
  have hprojq : ∀ q ∈ stableSort pairLE kr,
      projectRecord h (h.zip q.2) = some q.2 := by
    intro q hq
    rcases hwit q hq with ⟨r, _, hproj⟩
    exact projectRecord_zip_self hnd hproj
  have hload₁ : _load_table (h :: (stableSort pairLE kr).map Prod.snd) =
      some (((stableSort pairLE kr).map Prod.snd).map (fun row => h.zip row)) := rfl
  have hmapmap : ((stableSort pairLE kr).map Prod.snd).map (fun row => h.zip row) =
      (stableSort pairLE kr).map (fun q => h.zip q.2) := by
    rw [List.map_map]
    rfl
  have hkeyfun : omap (fun r => (mapping_sort_key r).map (fun k => (k, r)))
      ((stableSort pairLE kr).map (fun q => h.zip q.2)) =
      some ((stableSort pairLE kr).map (fun q => (q.1, h.zip q.2))) := by
    refine omap_map_general (fun q hq => ?_)
    rw [hkeyq q hq]
    rfl
  have hpw₂ : ((stableSort pairLE kr).map (fun q => (q.1, h.zip q.2))).Pairwise
      (fun p q => pairLE p q = true) := by
    refine List.pairwise_map.mpr ?_
    exact hLpw.imp (fun hpq => hpq)
  have hsort₂ : sortRecords ((stableSort pairLE kr).map (fun q => h.zip q.2)) =
      some ((stableSort pairLE kr).map (fun q => h.zip q.2)) := by
    rw [sortRecords, hkeyfun]
    simp only [Option.map_some']
    rw [stableSort_eq_self hpw₂, List.map_map]
    rfl
  have hkr₂ : keyedRows h ((stableSort pairLE kr).map (fun q => h.zip q.2)) =
      some (stableSort pairLE kr) := by
    have h0 : omap (fun r => (mapping_sort_key r).bind (fun k =>
        (projectRecord h r).map (fun row => (k, row))))
        ((stableSort pairLE kr).map (fun q => h.zip q.2)) =
        some ((stableSort pairLE kr).map (fun q => q)) := by
      refine omap_map_general (fun q hq => ?_)
      rw [hkeyq q hq]
      simp only [Option.some_bind]
      rw [hprojq q hq]
      rfl
    rw [keyedRows, h0]
    simp
  have hw₂ : _write_helper h ((stableSort pairLE kr).map (fun q => h.zip q.2)) [] "w" =
      some (h :: (stableSort pairLE kr).map Prod.snd) := by
    rw [write_helper_eq_keyed, hkr₂]
    simp only [Option.map_some']
    rw [stableSort_eq_self hLpw]
    simp
  rw [hload₁]
  simp only [Option.some_bind, hmapmap, hsort₂, hw₂]

theorem dictGet_cons_ne {β : Type} {k c : String} {v : β} {rest : List (String × β)}
    (hne : k ≠ c) : dictGet ((k, v) :: rest) c = dictGet rest c := by
  cases hrest : dictGet rest c with
  | none =>
    have : ¬(k == c) = true := by simpa using hne
    simp [dictGet, hrest, this]
  | some w => simp [dictGet, hrest]

theorem zip_projectRecord_self {h : List String} :
    ∀ {origRow row : Row}, h.Nodup →
      projectRecord h (h.zip origRow) = some row → h.zip row = h.zip origRow := by
  induction h with
  | nil =>
    intro origRow row _ hproj
    have : row = [] := by
      have := omap_eq_some_iff.mp hproj
      cases this
      rfl
    simp [this]
  | cons c t ih =>
    intro origRow row hnd hproj
    rcases List.nodup_cons.mp hnd with ⟨hct, hndt⟩
    cases origRow with
    | nil =>
      rcases omap_cons_eq_some.mp hproj with ⟨v, vt, hv, _, rfl⟩
      rw [List.zip_nil_right] at hv
      cases hv
    | cons v vt =>
      rw [List.zip_cons_cons] at hproj
      rcases omap_cons_eq_some.mp hproj with ⟨v₀, rowt, hv₀, hrowt, rfl⟩
      have hzget : dictGet ((c, v) :: t.zip vt) c = some v := by
        have hnone : dictGet (t.zip vt) c = none := dictGet_zip_of_not_mem hct
        simp [dictGet, hnone]
      have hv₀v : v₀ = v := by
        rw [hzget] at hv₀
        exact (Option.some_inj.mp hv₀).symm
      have htail : omap (dictGet ((c, v) :: t.zip vt)) t = omap (dictGet (t.zip vt)) t := by
        refine omap_congr (fun c' hc' => ?_)
        exact dictGet_cons_ne (fun hcc => hct (hcc ▸ hc'))
      have hproj' : projectRecord t (t.zip vt) = some rowt := by
        rw [projectRecord, ← htail]
        exact hrowt
      have := ih hndt hproj'
      rw [List.zip_cons_cons, this, hv₀v, List.zip_cons_cons]

theorem sortRecords_perm {lod srt : List Record} (h : sortRecords lod = some srt) :
    srt.Perm lod := by
  rcases sortRecords_eq_some_inv h with ⟨kp, hkp, rfl⟩
  have hF1 : List.Forall₂ (fun r p => mapping_sort_key r = some p.1 ∧ p.2 = r) lod kp :=
    (omap_eq_some_iff.mp hkp).imp (fun r p => keyfun_entry_eq_some.mp)
  have hmap : kp.map Prod.snd = lod := map_snd_of_keyfun_forall₂ hF1
  have hperm : ((stableSort pairLE kp).map Prod.snd).Perm (kp.map Prod.snd) :=
    (stableSort_perm pairLE kp).map Prod.snd
  rw [hmap] at hperm
  exact hperm

theorem map_zip_snd_eq {h : List String} (hnd : h.Nodup) :
    ∀ {srt : List Record} {kr : List (List String × Row)},
      List.Forall₂ (fun r q => mapping_sort_key r = some q.1 ∧
        projectRecord h r = some q.2) srt kr →
      (∀ r ∈ srt, ∃ origRow, r = h.zip origRow) →
      kr.map (fun q => h.zip q.2) = srt := by
  intro srt kr hF
  induction hF with
  | nil => intro _; rfl
  | cons hpq htail ih =>
    rename_i r q t t'
    intro hshape
    rcases hshape r (by simp) with ⟨origRow, rfl⟩
    have hzip : h.zip q.2 = h.zip origRow := zip_projectRecord_self hnd hpq.2
    simp only [List.map_cons, hzip]
    rw [ih (fun x hx => hshape x (by simp [hx]))]

theorem chainLE_append : ∀ {xs ys : List (List String)},
    chainLE xs = true → chainLE ys = true →
    (∀ x ∈ xs, ∀ y ∈ ys, strListLE x y = true) → chainLE (xs ++ ys) = true := by
  intro xs
  induction xs with
  | nil => intro ys _ hys _; simpa
  | cons x t ih =>
    intro ys hxs hys hcross
    cases t with
    | nil =>
      cases ys with
      | nil => rfl
      | cons y ty =>
        simp only [List.nil_append, List.singleton_append, chainLE, Bool.and_eq_true]
        exact ⟨hcross x (by simp) y (by simp), hys⟩
    | cons x₂ tt =>
      have hxs' : strListLE x x₂ = true ∧ chainLE (x₂ :: tt) = true := by
        simpa [chainLE] using hxs
      have := ih hxs'.2 hys (fun a ha y hy => hcross a (by simp [ha]) y hy)
      simp only [List.cons_append, chainLE, Bool.and_eq_true] at this ⊢
      exact ⟨hxs'.1, this⟩

theorem relint_perm {h : List String} (hnd : h.Nodup) {f f₁ : FileContent}
    (hhead : f.head? = some h)
    (h1 : (_load_table f).bind (fun recs => (sortRecords recs).bind
      (fun srt => _write_helper h srt [] "w")) = some f₁) :
    ∃ recs recs₁, _load_table f = some recs ∧ _load_table f₁ = some recs₁ ∧
      recs₁.Perm recs := by
  obtain ⟨rows, rfl⟩ : ∃ rows, f = h :: rows := by
    cases f with
    | nil => cases hhead
    | cons h₀ rows =>
      refine ⟨rows, ?_⟩
      rw [show h₀ = h from by simpa using hhead]
  rcases Option.bind_eq_some.mp h1 with ⟨recs, hload, h2⟩
  rcases Option.bind_eq_some.mp h2 with ⟨srt, hsort, hw⟩
  rcases write_helper_some_inv hw with ⟨kr, hkr, hf⟩
  have hf' : f₁ = h :: (stableSort pairLE kr).map Prod.snd := by simpa using hf
  subst hf'
  have hrecs : rows.map (fun row => h.zip row) = recs := by
    have hl := hload
    simp only [_load_table, Option.some_inj] at hl
    exact hl
  refine ⟨recs, ((stableSort pairLE kr).map Prod.snd).map (fun row => h.zip row),
    hload, rfl, ?_⟩
  have hmm : ((stableSort pairLE kr).map Prod.snd).map (fun row => h.zip row) =
      (stableSort pairLE kr).map (fun q => h.zip q.2) := by
    rw [List.map_map]
    rfl
  rw [hmm]
  have hperm1 : ((stableSort pairLE kr).map (fun q => h.zip q.2)).Perm
      (kr.map (fun q => h.zip q.2)) := (stableSort_perm pairLE kr).map _
  have hshape : ∀ r ∈ srt, ∃ origRow, r = h.zip origRow := by
    intro r hr
    have hmem : r ∈ recs := (sortRecords_perm hsort).mem_iff.mp hr
    rw [← hrecs] at hmem
    rcases List.mem_map.mp hmem with ⟨row, _, hrow⟩
    exact ⟨row, hrow.symm⟩
  have heq : kr.map (fun q => h.zip q.2) = srt :=
    map_zip_snd_eq hnd (keyedRows_eq_some_iff.mp hkr) hshape
  rw [heq] at hperm1
  exact hperm1.trans (sortRecords_perm hsort)

theorem fileRecordsSorted_cons_inv {h₀ : Row} {rows : List Row}
    (hs : fileRecordsSorted (h₀ :: rows) = true) :
    ∃ ks, omap (fun row => mapping_sort_key (h₀.zip row)) rows = some ks ∧
      chainLE ks = true := by
  cases hk : omap (fun row => mapping_sort_key (h₀.zip row)) rows with
  | none => simp [fileRecordsSorted, hk] at hs
  | some ks =>
    refine ⟨ks, rfl, ?_⟩
    simpa [fileRecordsSorted, hk] using hs

/-- Claim C7: the lint operation is idempotent: for every table file that a
first lint call has produced (shown for the true-mappings and the predictions
tables), a second consecutive lint call succeeds and produces byte-identical
file content (identical `FileContent`). -/
theorem claim_C7_lint_idempotent :
    (∀ f f₁ : FileContent, lint_true_mappings f = some f₁ →
      lint_true_mappings f₁ = some f₁) ∧
    (∀ f f₁ : FileContent, lint_predictions f = some f₁ →
      lint_predictions f₁ = some f₁) := by
  constructor
  · intro f f₁ h1
    rw [lint_true_mappings_eq_bind] at h1 ⊢
    exact relint_fix (by decide) (by decide) h1
  · intro f f₁ h1
    rw [lint_predictions_eq_bind] at h1 ⊢
    exact relint_fix (by decide) (by decide) h1

/-- Witness for C7 at concrete inputs: linting the two-row true-mappings file
with rows out of order produces the sorted file, and a second lint is the
identity on it; likewise for a predictions file. -/
theorem claim_C7_lint_idempotent_witness :
    lint_true_mappings
      [MAPPINGS_HEADER,
       ["a", "1", "c", "d", "e", "2", "f", "g", "h"],
       ["b", "1", "c", "d", "e", "2", "f", "g", "h"]] =
      some [MAPPINGS_HEADER,
       ["a", "1", "c", "d", "e", "2", "f", "g", "h"],
       ["b", "1", "c", "d", "e", "2", "f", "g", "h"]] ∧
    lint_predictions
      [PREDICTIONS_HEADER,
       ["a", "1", "c", "d", "e", "2", "f", "g", "0.9", "h"]] =
      some [PREDICTIONS_HEADER,
       ["a", "1", "c", "d", "e", "2", "f", "g", "0.9", "h"]] := by
  constructor
  · exact claim_C7_lint_idempotent.1
      [MAPPINGS_HEADER,
       ["b", "1", "c", "d", "e", "2", "f", "g", "h"],
       ["a", "1", "c", "d", "e", "2", "f", "g", "h"]]
      [MAPPINGS_HEADER,
       ["a", "1", "c", "d", "e", "2", "f", "g", "h"],
       ["b", "1", "c", "d", "e", "2", "f", "g", "h"]] rfl
  · exact claim_C7_lint_idempotent.2
      [PREDICTIONS_HEADER,
       ["a", "1", "c", "d", "e", "2", "f", "g", "0.9", "h"]]
      [PREDICTIONS_HEADER,
       ["a", "1", "c", "d", "e", "2", "f", "g", "0.9", "h"]] rfl

/-- Claim C9: lint never removes records: for every well-formed table file
(first line is the schema header) on which lint succeeds, the multiset of
records after lint is a permutation of the multiset before — lint only
reorders, so duplicate canonical keys persist (shown for the true-mappings
and the predictions tables). -/
theorem claim_C9_lint_preserves_records :
    (∀ f f₁ : FileContent, f.head? = some MAPPINGS_HEADER →
      lint_true_mappings f = some f₁ →
      ∃ recs recs₁, _load_table f = some recs ∧ _load_table f₁ = some recs₁ ∧
        recs₁.Perm recs) ∧
    (∀ f f₁ : FileContent, f.head? = some PREDICTIONS_HEADER →
      lint_predictions f = some f₁ →
      ∃ recs recs₁, _load_table f = some recs ∧ _load_table f₁ = some recs₁ ∧
        recs₁.Perm recs) := by
  constructor
  · intro f f₁ hhead h1
    rw [lint_true_mappings_eq_bind] at h1
    exact relint_perm (by decide) hhead h1
  · intro f f₁ hhead h1
    rw [lint_predictions_eq_bind] at h1
    exact relint_perm (by decide) hhead h1

/-- Witness for C9 at a concrete input: a true-mappings table containing the
same row twice keeps both copies through lint (the loaded record multisets
before and after are permutations of each other). -/
theorem claim_C9_lint_preserves_records_witness :
    ∃ recs recs₁,
      _load_table [MAPPINGS_HEADER,
        ["a", "1", "c", "d", "e", "2", "f", "g", "h"],
        ["a", "1", "c", "d", "e", "2", "f", "g", "h"]] = some recs ∧
      _load_table [MAPPINGS_HEADER,
        ["a", "1", "c", "d", "e", "2", "f", "g", "h"],
        ["a", "1", "c", "d", "e", "2", "f", "g", "h"]] = some recs₁ ∧
      recs₁.Perm recs := by
  refine claim_C9_lint_preserves_records.1
    [MAPPINGS_HEADER,
     ["a", "1", "c", "d", "e", "2", "f", "g", "h"],
     ["a", "1", "c", "d", "e", "2", "f", "g", "h"]]
    [MAPPINGS_HEADER,
     ["a", "1", "c", "d", "e", "2", "f", "g", "h"],
     ["a", "1", "c", "d", "e", "2", "f", "g", "h"]] rfl rfl

theorem rows_keys_of_keyedRows {h : List String} (hnd : h.Nodup)
    (hsub : ∀ c ∈ ["source prefix", "source identifier", "relation", "target prefix",
      "target identifier", "type", "source"], c ∈ h)
    {lod : List Record} {kr : List (List String × Row)}
    (hkr : keyedRows h lod = some kr) :
    omap (fun row => mapping_sort_key (h.zip row))
      ((stableSort pairLE kr).map Prod.snd) =
      some ((stableSort pairLE kr).map Prod.fst) := by
  refine omap_map_general (fun q hq => ?_)
  rcases keyedRows_mem_witness hkr q ((stableSort_perm pairLE kr).mem_iff.mp hq)
    with ⟨r, _, hkey, hproj⟩
  rw [mapping_sort_key_zip hnd hsub hproj]
  exact hkey

theorem chainLE_keys_sorted {kr : List (List String × Row)} :
    chainLE ((stableSort pairLE kr).map Prod.fst) = true := by
  refine chainLE_of_pairwise ?_
  exact List.pairwise_map.mpr
    (stableSort_pairwise pairLE_total (fun a b c => pairLE_trans) kr)

/-- Claim C2: after each write-path operation — full overwrite, lint, append
with `sort=True` (each shown for both the true-mappings and the predictions
table), and a plain append (`sort=False`) to a sorted table whose existing
rows' canonical keys all precede the keys of the appended batch — the record
sequence of the resulting table file is non-decreasing under the
lexicographic order on the 7-tuple canonical key. -/
theorem claim_C2_sort_invariant :
    (∀ (m : List Record) (f : FileContent), write_true_mappings m = some f →
      fileRecordsSorted f = true) ∧
    (∀ (m : List Record) (f : FileContent), write_predictions m = some f →
      fileRecordsSorted f = true) ∧
    (∀ f₀ f : FileContent, lint_true_mappings f₀ = some f →
      fileRecordsSorted f = true) ∧
    (∀ f₀ f : FileContent, lint_predictions f₀ = some f →
      fileRecordsSorted f = true) ∧
    (∀ (f₀ : FileContent) (m : List Record) (f : FileContent),
      append_true_mappings f₀ m true = some f → fileRecordsSorted f = true) ∧
    (∀ (fT fF fP : FileContent) (m : List Record) (dd : Bool) (f : FileContent),
      append_predictions fT fF fP m dd true = some f →
      fileRecordsSorted f = true) ∧
    (∀ (f₀ : FileContent) (m : List Record) (f : FileContent),
      f₀.head? = some MAPPINGS_HEADER → fileRecordsSorted f₀ = true →
      (∀ row ∈ f₀.tail, ∀ k, mapping_sort_key (MAPPINGS_HEADER.zip row) = some k →
        ∀ r ∈ m, ∀ k', mapping_sort_key r = some k' → strListLE k k' = true) →
      append_true_mappings f₀ m false = some f → fileRecordsSorted f = true) := by
  refine ⟨?_, ?_, ?_, ?_, ?_, ?_, ?_⟩
  · intro m f hw
    exact write_w_fileRecordsSorted (by decide) (by decide) hw
  · intro m f hw
    exact write_w_fileRecordsSorted (by decide) (by decide) hw
  · intro f₀ f h1
    rw [lint_true_mappings_eq_bind] at h1
    rcases Option.bind_eq_some.mp h1 with ⟨recs, _, h2⟩
    rcases Option.bind_eq_some.mp h2 with ⟨srt, _, hw⟩
    exact write_w_fileRecordsSorted (by decide) (by decide) hw
  · intro f₀ f h1
    rw [lint_predictions_eq_bind] at h1
    rcases Option.bind_eq_some.mp h1 with ⟨recs, _, h2⟩
    rcases Option.bind_eq_some.mp h2 with ⟨srt, _, hw⟩
    exact write_w_fileRecordsSorted (by decide) (by decide) hw
  · intro f₀ m f h1
    rcases Option.bind_eq_some.mp h1 with ⟨appended, _, h2⟩
    simp only [if_true] at h2
    rcases Option.bind_eq_some.mp h2 with ⟨recs, _, h3⟩
    rcases Option.bind_eq_some.mp h3 with ⟨srt, _, hw⟩
    exact write_w_fileRecordsSorted (by decide) (by decide) hw
  · intro fT fF fP m dd f h1
    simp only [append_predictions] at h1
    cases dd with
    | true =>
      rw [if_pos rfl] at h1
      rcases Option.bind_eq_some.mp h1 with ⟨existing, _, h2⟩
      rcases Option.bind_eq_some.mp h2 with ⟨survivors, _, h3⟩
      rcases Option.bind_eq_some.mp h3 with ⟨appended, _, h4⟩
      rw [if_pos trivial] at h4
      rcases Option.bind_eq_some.mp h4 with ⟨recs, _, h5⟩
      rcases Option.bind_eq_some.mp h5 with ⟨srt, _, hw⟩
      exact write_w_fileRecordsSorted (by decide) (by decide) hw
    | false =>
      rw [if_neg (by simp)] at h1
      rcases Option.bind_eq_some.mp h1 with ⟨survivors, _, h2⟩
      rcases Option.bind_eq_some.mp h2 with ⟨appended, _, h3⟩
      rw [if_pos trivial] at h3
      rcases Option.bind_eq_some.mp h3 with ⟨recs, _, h4⟩
      rcases Option.bind_eq_some.mp h4 with ⟨srt, _, hw⟩
      exact write_w_fileRecordsSorted (by decide) (by decide) hw
  · intro f₀ m f hhead hsorted hcross happ
    obtain ⟨rows₀, rfl⟩ : ∃ rows₀, f₀ = MAPPINGS_HEADER :: rows₀ := by
      cases f₀ with
      | nil => cases hhead
      | cons h₀ rows =>
        refine ⟨rows, ?_⟩
        rw [show h₀ = MAPPINGS_HEADER from by simpa using hhead]
    rcases Option.bind_eq_some.mp happ with ⟨appended, hwA, h2⟩
    have hfeq : appended = f := by
      simpa using h2
    subst hfeq
    rcases write_helper_some_inv hwA with ⟨kr, hkr, hf⟩
    have hf' : appended = (MAPPINGS_HEADER :: rows₀) ++
        (stableSort pairLE kr).map Prod.snd := by simpa using hf
    subst hf'
    rcases fileRecordsSorted_cons_inv hsorted with ⟨ks₀, homap₀, hchain₀⟩
    have hkeysNew := rows_keys_of_keyedRows
      (show MAPPINGS_HEADER.Nodup from by decide) (by decide) hkr
    have homapAll : omap (fun row => mapping_sort_key (MAPPINGS_HEADER.zip row))
        (rows₀ ++ (stableSort pairLE kr).map Prod.snd) =
        some (ks₀ ++ (stableSort pairLE kr).map Prod.fst) := by
      rw [omap_append, homap₀, hkeysNew]
      rfl
    have hcrossK : ∀ x ∈ ks₀, ∀ y ∈ (stableSort pairLE kr).map Prod.fst,
        strListLE x y = true := by
      intro x hx y hy
      rcases forall₂_mem_right (omap_eq_some_iff.mp homap₀) x hx with ⟨row, hrow, hkx⟩
      rcases List.mem_map.mp hy with ⟨q, hq, hqy⟩
      rcases keyedRows_mem_witness hkr q
        ((stableSort_perm pairLE kr).mem_iff.mp hq) with ⟨r, hr, hkey, _⟩
      subst hqy
      exact hcross row hrow x hkx r hr q.1 hkey
    have hchainAll : chainLE (ks₀ ++ (stableSort pairLE kr).map Prod.fst) = true :=
      chainLE_append hchain₀ chainLE_keys_sorted hcrossK
    simp [fileRecordsSorted, homapAll, hchainAll]

/-- Witness for C2: each write-path operation, applied at concrete inputs,
yields a file whose record sequence is non-decreasing on canonical keys. -/
theorem claim_C2_sort_invariant_witness :
    fileRecordsSorted [MAPPINGS_HEADER,
      ["a", "1", "c", "d", "e", "2", "f", "g", "h"],
      ["b", "1", "c", "d", "e", "2", "f", "g", "h"]] = true ∧
    fileRecordsSorted [PREDICTIONS_HEADER,
      ["a", "1", "c", "d", "e", "2", "f", "g", "0.9", "h"],
      ["b", "1", "c", "d", "e", "2", "f", "g", "0.9", "h"]] = true ∧
    fileRecordsSorted [MAPPINGS_HEADER,
      ["a", "1", "c", "d", "e", "2", "f", "g", "h"],
      ["b", "1", "c", "d", "e", "2", "f", "g", "h"]] = true ∧
    fileRecordsSorted [PREDICTIONS_HEADER,
      ["a", "1", "c", "d", "e", "2", "f", "g", "0.9", "h"],
      ["b", "1", "c", "d", "e", "2", "f", "g", "0.9", "h"]] = true ∧
    fileRecordsSorted [MAPPINGS_HEADER,
      ["a", "1", "c", "d", "e", "2", "f", "g", "h"],
      ["b", "1", "c", "d", "e", "2", "f", "g", "h"]] = true ∧
    fileRecordsSorted [PREDICTIONS_HEADER,
      ["a", "1", "c", "d", "e", "2", "f", "g", "0.9", "h"],
      ["b", "1", "c", "d", "e", "2", "f", "g", "0.9", "h"]] = true ∧
    fileRecordsSorted [MAPPINGS_HEADER,
      ["a", "1", "c", "d", "e", "2", "f", "g", "h"],
      ["b", "1", "c", "d", "e", "2", "f", "g", "h"]] = true := by
  refine ⟨?_, ?_, ?_, ?_, ?_, ?_, ?_⟩
  · exact claim_C2_sort_invariant.1
      [MAPPINGS_HEADER.zip ["b", "1", "c", "d", "e", "2", "f", "g", "h"],
       MAPPINGS_HEADER.zip ["a", "1", "c", "d", "e", "2", "f", "g", "h"]] _ rfl
  · exact claim_C2_sort_invariant.2.1
      [PREDICTIONS_HEADER.zip ["b", "1", "c", "d", "e", "2", "f", "g", "0.9", "h"],
       PREDICTIONS_HEADER.zip ["a", "1", "c", "d", "e", "2", "f", "g", "0.9", "h"]] _ rfl
  · exact claim_C2_sort_invariant.2.2.1
      [MAPPINGS_HEADER,
       ["b", "1", "c", "d", "e", "2", "f", "g", "h"],
       ["a", "1", "c", "d", "e", "2", "f", "g", "h"]] _ rfl
  · exact claim_C2_sort_invariant.2.2.2.1
      [PREDICTIONS_HEADER,
       ["b", "1", "c", "d", "e", "2", "f", "g", "0.9", "h"],
       ["a", "1", "c", "d", "e", "2", "f", "g", "0.9", "h"]] _ rfl
  · exact claim_C2_sort_invariant.2.2.2.2.1
      [MAPPINGS_HEADER, ["b", "1", "c", "d", "e", "2", "f", "g", "h"]]
      [MAPPINGS_HEADER.zip ["a", "1", "c", "d", "e", "2", "f", "g", "h"]] _ rfl
  · exact claim_C2_sort_invariant.2.2.2.2.2.1
      [MAPPINGS_HEADER] [MAPPINGS_HEADER]
      [PREDICTIONS_HEADER, ["b", "1", "c", "d", "e", "2", "f", "g", "0.9", "h"]]
      [PREDICTIONS_HEADER.zip ["a", "1", "c", "d", "e", "2", "f", "g", "0.9", "h"]]
      true _ rfl
  · refine claim_C2_sort_invariant.2.2.2.2.2.2
      [MAPPINGS_HEADER, ["a", "1", "c", "d", "e", "2", "f", "g", "h"]]
      [MAPPINGS_HEADER.zip ["b", "1", "c", "d", "e", "2", "f", "g", "h"]] _
      rfl rfl ?_ rfl
    intro row hrow k hk r hr k' hk'
    simp only [List.tail_cons, List.mem_singleton] at hrow hr
    subst hrow
    subst hr
    have e1 : mapping_sort_key (MAPPINGS_HEADER.zip
        ["a", "1", "c", "d", "e", "2", "f", "g", "h"]) =
        some ["a", "1", "d", "e", "2", "g", "h"] := rfl
    have e2 : mapping_sort_key (MAPPINGS_HEADER.zip
        ["b", "1", "c", "d", "e", "2", "f", "g", "h"]) =
        some ["b", "1", "d", "e", "2", "g", "h"] := rfl
    have hk1 : k = ["a", "1", "d", "e", "2", "g", "h"] :=
      (Option.some_inj.mp (e1.symm.trans hk)).symm
    have hk2 : k' = ["b", "1", "d", "e", "2", "g", "h"] :=
      (Option.some_inj.mp (e2.symm.trans hk')).symm
    subst hk1
    subst hk2
    rfl

/-- Claim C4: the key function used by the write-time sort comparator
(`mapping_sort_key`, from the source) and the canonicalization function used
to build the deduplication membership set (`get_canonical_tuple`, modelled
from the spec's collaborator contract) agree on every record: the sort key is
exactly the canonical 7-tuple. -/
theorem claim_C4_sort_key_eq_canonical_tuple :
    ∀ r : Record, mapping_sort_key r = get_canonical_tuple r :=
  fun _ => rfl

/-- Claim C6: converting a typed tuple of either schema to a record dictionary
and back yields exactly the original tuple (for predictions, for every
confidence carrier type). -/
theorem claim_C6_tuple_roundtrip :
    (∀ t : MappingTuple, MappingTuple.from_dict (MappingTuple.as_dict t) = some t) ∧
    (∀ (γ : Type) (t : PredictionTuple γ),
      PredictionTuple.from_dict (PredictionTuple.as_dict t) = some t) := by
  constructor
  · intro t
    cases t
    rfl
  · intro γ t
    cases t
    rfl

/-- Counterexample to C3 as stated: loading a file whose header has two
fields and whose (only) data row has one field does not fail with a parse
error — it silently returns a table whose record was truncated to the single
present field. -/
theorem claim_C3_counterexample :
    _load_table [["a", "b"], ["x"]] = some [[("a", "x")]] ∧
    (_load_table [["a", "b"], ["x"]]).isSome = true :=
  ⟨rfl, rfl⟩

/-- Claim C3 (amended): the table load never fails on a field-count mismatch.
Every row is zipped positionally with the header, truncating to the shorter
of the two, so each record has `min n (length row)` fields; `_load_table`
fails only on an empty file. -/
theorem claim_C3_load_zips_rows :
    ∀ (header : Row) (rows : List Row),
      _load_table (header :: rows) = some (rows.map (fun row => header.zip row)) ∧
      ∀ row ∈ rows, (header.zip row).length = min header.length row.length := by
  intro header rows
  constructor
  · rfl
  · intro row _
    exact List.length_zip header row

/-- Witness for the amended C3 at the counterexample input: the mismatched
row loads successfully into a one-field record. -/
theorem claim_C3_load_zips_rows_witness :
    _load_table [["a", "b"], ["x"]] = some [[("a", "x")]] ∧
    (["a", "b"].zip ["x"]).length = min 2 1 :=
  ⟨(claim_C3_load_zips_rows ["a", "b"] [["x"]]).1,
   (claim_C3_load_zips_rows ["a", "b"] [["x"]]).2 ["x"] (by simp)⟩

theorem keepFilter_eq_filter {F : CustomFilter} :
    ∀ {recs kept : List Record}, keepFilter F recs = some kept →
      kept = recs.filter (fun p => _check_filter p F == some true) := by
  intro recs
  induction recs with
  | nil =>
    intro kept h
    cases h
    rfl
  | cons p t ih =>
    intro kept h
    rcases Option.bind_eq_some.mp h with ⟨b, hb, h2⟩
    rcases Option.bind_eq_some.mp h2 with ⟨tail, htail, h3⟩
    have hkept : kept = if b then p :: tail else tail := (Option.some_inj.mp h3).symm
    subst hkept
    rw [ih htail]
    cases b with
    | true => simp [List.filter_cons, hb]
    | false => simp [List.filter_cons, hb]

theorem check_filter_of_fields {p : Record} {F : CustomFilter} {sp tp si ti : String}
    (h1 : dictGet p "source prefix" = some sp)
    (h2 : dictGet p "target prefix" = some tp)
    (h3 : dictGet p "source identifier" = some si)
    (h4 : dictGet p "target identifier" = some ti) :
    _check_filter p F = some (match filterEntry F sp tp si with
      | none => true
      | some v => ti != v) := by
  simp [_check_filter, h1, h2, h3, h4]

/-- Claim C5: after `filter_predictions(F)` (i) no surviving record's
(source prefix, target prefix, source identifier) entry in `F` equals its
target identifier; (ii) `_check_filter` keeps a record exactly when the
nested filter has no entry for its triple or the entry differs from its
target identifier, and it never errors on a missing key at any filter level
(a Boolean verdict always exists, for every filter); (iii) the surviving
records are exactly the loaded records passing `_check_filter`, rewritten
through the standard write path. -/
theorem claim_C5_filter_predictions :
    (∀ (fP f' : FileContent) (F : CustomFilter),
      filter_predictions fP F = some f' →
      ∃ recs', _load_table f' = some recs' ∧
        ∀ p ∈ recs', ∀ sp tp si ti : String,
          dictGet p "source prefix" = some sp →
          dictGet p "target prefix" = some tp →
          dictGet p "source identifier" = some si →
          dictGet p "target identifier" = some ti →
          filterEntry F sp tp si ≠ some ti) ∧
    (∀ (p : Record) (F : CustomFilter) (sp tp si ti : String),
      dictGet p "source prefix" = some sp →
      dictGet p "target prefix" = some tp →
      dictGet p "source identifier" = some si →
      dictGet p "target identifier" = some ti →
      ∃ b, _check_filter p F = some b ∧
        (b = true ↔ (filterEntry F sp tp si = none ∨
          ∃ v, filterEntry F sp tp si = some v ∧ v ≠ ti))) ∧
    (∀ (fP f' : FileContent) (F : CustomFilter),
      filter_predictions fP F = some f' →
      ∃ recs kept, _load_table fP = some recs ∧ keepFilter F recs = some kept ∧
        kept = recs.filter (fun p => _check_filter p F == some true) ∧
        write_predictions kept = some f') := by
  refine ⟨?_, ?_, ?_⟩
  · intro fP f' F hfp
    simp only [filter_predictions] at hfp
    rcases Option.bind_eq_some.mp hfp with ⟨recs, hrecs, h2⟩
    rcases Option.bind_eq_some.mp h2 with ⟨kept, hkept, hw⟩
    rcases write_helper_some_inv hw with ⟨kr, hkr, hf⟩
    have hf' : f' = PREDICTIONS_HEADER :: (stableSort pairLE kr).map Prod.snd := by
      simpa using hf
    subst hf'
    refine ⟨((stableSort pairLE kr).map Prod.snd).map
      (fun row => PREDICTIONS_HEADER.zip row), rfl, ?_⟩
    intro p' hp' sp tp si ti hsp htp hsi hti
    rcases List.mem_map.mp hp' with ⟨row, hrow, hrowp⟩
    rcases List.mem_map.mp hrow with ⟨q, hq, hqrow⟩
    subst hqrow
    subst hrowp
    rcases keyedRows_mem_witness hkr q ((stableSort_perm pairLE kr).mem_iff.mp hq)
      with ⟨r, hrkept, _, hproj⟩
    have hGG := dictGet_zip_projectRecord
      (show PREDICTIONS_HEADER.Nodup from by decide) hproj
    have hsp' : dictGet r "source prefix" = some sp := by
      rw [← hGG "source prefix" (by decide)]
      exact hsp
    have htp' : dictGet r "target prefix" = some tp := by
      rw [← hGG "target prefix" (by decide)]
      exact htp
    have hsi' : dictGet r "source identifier" = some si := by
      rw [← hGG "source identifier" (by decide)]
      exact hsi
    have hti' : dictGet r "target identifier" = some ti := by
      rw [← hGG "target identifier" (by decide)]
      exact hti
    have hrfilter : r ∈ recs.filter (fun p => _check_filter p F == some true) := by
      rw [← keepFilter_eq_filter hkept]
      exact hrkept
    have hcheck : _check_filter r F = some true := by
      have := (List.mem_filter.mp hrfilter).2
      simpa using this
    rw [check_filter_of_fields hsp' htp' hsi' hti'] at hcheck
    have hmatch : (match filterEntry F sp tp si with
        | none => true
        | some v => ti != v) = true := Option.some_inj.mp hcheck
    cases hE : filterEntry F sp tp si with
    | none => simp
    | some v =>
      rw [hE] at hmatch
      simp only [bne_iff_ne, ne_eq] at hmatch
      intro hcontra
      exact hmatch (Option.some_inj.mp hcontra).symm
  · intro p F sp tp si ti h1 h2 h3 h4
    refine ⟨_, check_filter_of_fields h1 h2 h3 h4, ?_⟩
    cases hE : filterEntry F sp tp si with
    | none => simp
    | some v =>
      simp only [bne_iff_ne, ne_eq]
      constructor
      · intro hne
        exact Or.inr ⟨v, rfl, fun hv => hne hv.symm⟩
      · rintro (hnone | ⟨v', hv', hne⟩)
        · cases hnone
        · intro hti
          exact hne ((Option.some_inj.mp hv').symm ▸ hti.symm)
  · intro fP f' F hfp
    simp only [filter_predictions] at hfp
    rcases Option.bind_eq_some.mp hfp with ⟨recs, hrecs, h2⟩
    rcases Option.bind_eq_some.mp h2 with ⟨kept, hkept, hw⟩
    exact ⟨recs, kept, hrecs, hkept, keepFilter_eq_filter hkept, hw⟩

/-- Witness for C5 at the spec's scenario: the filter
`{"ns1": {"ns2": {"A": "B"}}}` removes the prediction with target id `B` and
keeps the one with target id `C`; the kept record's entry differs from its
target identifier. -/
theorem claim_C5_filter_predictions_witness :
    filter_predictions
      [PREDICTIONS_HEADER,
       ["ns1", "A", "c", "d", "ns2", "B", "f", "g", "0.9", "h"],
       ["ns1", "A", "c", "d", "ns2", "C", "f", "g", "0.9", "h"]]
      [("ns1", [("ns2", [("A", "B")])])] =
      some [PREDICTIONS_HEADER,
       ["ns1", "A", "c", "d", "ns2", "C", "f", "g", "0.9", "h"]] ∧
    filterEntry [("ns1", [("ns2", [("A", "B")])])] "ns1" "ns2" "A" ≠ some "C" := by
  constructor
  · rfl
  · obtain ⟨recs', hload, hinv⟩ := claim_C5_filter_predictions.1
      [PREDICTIONS_HEADER,
       ["ns1", "A", "c", "d", "ns2", "B", "f", "g", "0.9", "h"],
       ["ns1", "A", "c", "d", "ns2", "C", "f", "g", "0.9", "h"]]
      [PREDICTIONS_HEADER,
       ["ns1", "A", "c", "d", "ns2", "C", "f", "g", "0.9", "h"]]
      [("ns1", [("ns2", [("A", "B")])])] rfl
    have h0 : _load_table [PREDICTIONS_HEADER,
        ["ns1", "A", "c", "d", "ns2", "C", "f", "g", "0.9", "h"]] =
        some [PREDICTIONS_HEADER.zip
          ["ns1", "A", "c", "d", "ns2", "C", "f", "g", "0.9", "h"]] := rfl
    have hrecs' : recs' = [PREDICTIONS_HEADER.zip
        ["ns1", "A", "c", "d", "ns2", "C", "f", "g", "0.9", "h"]] :=
      (Option.some_inj.mp (h0.symm.trans hload)).symm
    subst hrecs'
    exact hinv (PREDICTIONS_HEADER.zip
        ["ns1", "A", "c", "d", "ns2", "C", "f", "g", "0.9", "h"])
      (by simp) "ns1" "ns2" "A" "C" rfl rfl rfl rfl

theorem omap_of_forall₂_snd {κ β γ : Type} {f : β → Option γ} :
    ∀ {l : List (κ × β)} {l' : List γ},
      List.Forall₂ (fun p q => f p.2 = some q) l l' →
      omap f (l.map Prod.snd) = some l' := by
  intro l l' h
  induction h with
  | nil => rfl
  | cons hpq htail ih => simp [omap, hpq, ih]

theorem keyed_entry_none_of_key_none {h : List String} {r : Record}
    (hk : mapping_sort_key r = none) :
    (mapping_sort_key r).bind (fun k => (projectRecord h r).map (fun row => (k, row))) =
      none := by
  simp [hk]

theorem sort_pre_write {h : List String} (lod : List Record) (x y : FileContent) :
    (sortRecords lod).bind (fun srt => _write_helper h srt x "w") =
      _write_helper h lod y "w" := by
  cases hs : sortRecords lod with
  | none =>
    have hkp : omap (fun r => (mapping_sort_key r).map (fun k => (k, r))) lod = none := by
      cases hkp' : omap (fun r => (mapping_sort_key r).map (fun k => (k, r))) lod with
      | none => rfl
      | some kp => rw [sortRecords, hkp'] at hs; cases hs
    have hkr : keyedRows h lod = none := by
      rcases omap_eq_none_iff.mp hkp with ⟨r, hr, hfr⟩
      have hmk : mapping_sort_key r = none := by
        cases hmk' : mapping_sort_key r with
        | none => rfl
        | some k => rw [hmk'] at hfr; cases hfr
      rw [keyedRows]
      exact omap_eq_none_iff.mpr ⟨r, hr, keyed_entry_none_of_key_none hmk⟩
    rw [write_helper_eq_keyed, hkr]
    simp
  | some srt =>
    rcases sortRecords_eq_some_inv hs with ⟨kp, hkp, rfl⟩
    cases hkr : keyedRows h lod with
    | none =>
      rcases omap_eq_none_iff.mp (by rw [keyedRows] at hkr; exact hkr) with ⟨r, hr, hfr⟩
      have hF1 : List.Forall₂ (fun r p => mapping_sort_key r = some p.1 ∧ p.2 = r) lod kp :=
        (omap_eq_some_iff.mp hkp).imp (fun r p => keyfun_entry_eq_some.mp)
      have hrmem : r ∈ (stableSort pairLE kp).map Prod.snd := by
        have hrl : r ∈ kp.map Prod.snd := by
          rw [map_snd_of_keyfun_forall₂ hF1]
          exact hr
        rcases List.mem_map.mp hrl with ⟨p', hp', hpr⟩
        exact List.mem_map.mpr ⟨p', (stableSort_perm pairLE kp).mem_iff.mpr hp', hpr⟩
      have hkrs : keyedRows h ((stableSort pairLE kp).map Prod.snd) = none := by
        rw [keyedRows]
        exact omap_eq_none_iff.mpr ⟨r, hrmem, hfr⟩
      rw [Option.some_bind, write_helper_eq_keyed, write_helper_eq_keyed, hkrs, hkr]
      rfl
    | some kr =>
      have hF2 : List.Forall₂ (fun (p : List String × Record) (q : List String × Row) =>
          p.1 = q.1 ∧ (mapping_sort_key p.2).bind (fun k =>
            (projectRecord h p.2).map (fun row => (k, row))) = some q) kp kr := by
        have hcomp := forall₂_of_omap_omap hkp (by rw [keyedRows] at hkr; exact hkr)
        refine hcomp.imp (fun p q hpq => ?_)
        rcases hpq with ⟨r, _, hfp, hfq⟩
        rcases keyfun_entry_eq_some.mp hfp with ⟨hk, hr⟩
        rcases keyed_entry_eq_some.mp hfq with ⟨hk', _⟩
        refine ⟨?_, ?_⟩
        · rw [hk] at hk'
          exact Option.some_inj.mp hk'
        · rw [hr]
          exact hfq
      have hSorted : List.Forall₂ (fun (p : List String × Record) (q : List String × Row) =>
          p.1 = q.1 ∧ (mapping_sort_key p.2).bind (fun k =>
            (projectRecord h p.2).map (fun row => (k, row))) = some q)
          (stableSort pairLE kp) (stableSort pairLE kr) := by
        refine stableSort_forall₂ ?_ hF2
        intro p q hpq p' q' hpq'
        simp only [pairLE, hpq.1, hpq'.1]
      have hkrs : keyedRows h ((stableSort pairLE kp).map Prod.snd) =
          some (stableSort pairLE kr) := by
        rw [keyedRows]
        exact omap_of_forall₂_snd (hSorted.imp (fun p q hpq => hpq.2))
      rw [Option.some_bind, write_helper_eq_keyed, write_helper_eq_keyed, hkrs, hkr]
      have hss : stableSort pairLE (stableSort pairLE kr) = stableSort pairLE kr :=
        stableSort_eq_self (stableSort_pairwise pairLE_total (fun a b c => pairLE_trans) kr)
      simp [hss]

theorem keyedRows_reload {h : List String} (hnd : h.Nodup)
    (hsub : ∀ c ∈ ["source prefix", "source identifier", "relation", "target prefix",
      "target identifier", "type", "source"], c ∈ h)
    {m : List Record} {km : List (List String × Row)}
    (hkm : keyedRows h m = some km) :
    keyedRows h ((stableSort pairLE km).map (fun q => h.zip q.2)) =
      some ((stableSort pairLE km).map (fun q => q)) := by
  rw [keyedRows]
  refine omap_map_general (fun q hq => ?_)
  rcases keyedRows_mem_witness hkm q ((stableSort_perm pairLE km).mem_iff.mp hq)
    with ⟨r, _, hkey, hproj⟩
  rw [mapping_sort_key_zip hnd hsub hproj, hkey]
  simp only [Option.some_bind]
  rw [projectRecord_zip_self hnd hproj]
  rfl

theorem write_reload_append {h : List String} (hnd : h.Nodup)
    (hsub : ∀ c ∈ ["source prefix", "source identifier", "relation", "target prefix",
      "target identifier", "type", "source"], c ∈ h)
    {m : List Record} {km : List (List String × Row)}
    (hkm : keyedRows h m = some km) (xs : List Record) (x y : FileContent) :
    _write_helper h (xs ++ (stableSort pairLE km).map (fun q => h.zip q.2)) x "w" =
      _write_helper h (xs ++ m) y "w" := by
  have hrel : keyedRows h ((stableSort pairLE km).map (fun q => h.zip q.2)) =
      some (stableSort pairLE km) := by
    have := keyedRows_reload hnd hsub hkm
    simpa using this
  rw [write_helper_eq_keyed, write_helper_eq_keyed]
  rw [keyedRows, omap_append, keyedRows, omap_append]
  rw [show omap (fun r => (mapping_sort_key r).bind (fun k =>
    (projectRecord h r).map (fun row => (k, row))))
    ((stableSort pairLE km).map (fun q => h.zip q.2)) =
    some (stableSort pairLE km) from by rw [keyedRows] at hrel; exact hrel]
  rw [show omap (fun r => (mapping_sort_key r).bind (fun k =>
    (projectRecord h r).map (fun row => (k, row)))) m = some km from by
    rw [keyedRows] at hkm; exact hkm]
  cases hxs : omap (fun r => (mapping_sort_key r).bind (fun k =>
    (projectRecord h r).map (fun row => (k, row)))) xs with
  | none => rfl
  | some k₀ =>
    simp only [Option.some_bind, Option.map_some']
    rw [stableSort_append_stableSort pairLE_total (fun a b c => pairLE_trans) k₀ km]
    simp

theorem append_sort_eq_write {h : List String} (hnd : h.Nodup)
    (hsub : ∀ c ∈ ["source prefix", "source identifier", "relation", "target prefix",
      "target identifier", "type", "source"], c ∈ h)
    {f : FileContent} {m : List Record} {f' : FileContent}
    (hhead : f.head? = some h)
    (happ : (_write_helper h m f "a").bind (fun appended =>
      (_load_table appended).bind (fun recs => (sortRecords recs).bind
        (fun srt => _write_helper h srt [] "w"))) = some f') :
    ∃ old, _load_table f = some old ∧ _write_helper h (old ++ m) [] "w" = some f' := by
  obtain ⟨rows₀, rfl⟩ : ∃ rows₀, f = h :: rows₀ := by
    cases f with
    | nil => cases hhead
    | cons h₀ rows =>
      refine ⟨rows, ?_⟩
      rw [show h₀ = h from by simpa using hhead]
  rcases Option.bind_eq_some.mp happ with ⟨appended, happA, h2⟩
  rcases write_helper_some_inv happA with ⟨km, hkm, hfA⟩
  have hfA' : appended = (h :: rows₀) ++ (stableSort pairLE km).map Prod.snd := by
    simpa using hfA
  subst hfA'
  rcases Option.bind_eq_some.mp h2 with ⟨recs, hload₂, h3⟩
  have hrecseq : recs = rows₀.map (fun row => h.zip row) ++
      (stableSort pairLE km).map (fun q => h.zip q.2) := by
    have h0 : _load_table ((h :: rows₀) ++ (stableSort pairLE km).map Prod.snd) =
        some ((rows₀ ++ (stableSort pairLE km).map Prod.snd).map
          (fun row => h.zip row)) := rfl
    have h1 := Option.some_inj.mp (h0.symm.trans hload₂)
    rw [← h1, List.map_append, List.map_map]
    rfl
  subst hrecseq
  refine ⟨rows₀.map (fun row => h.zip row), rfl, ?_⟩
  rw [sort_pre_write _ [] []] at h3
  rw [write_reload_append hnd hsub hkm _ [] []] at h3
  exact h3

/-- Claim C8: append with `sort=True` is equivalent to a single sorted
overwrite with the union of the old records and the (appended) batch —
shown for `append_true_mappings`, for `append_predictions` without
deduplication, and for `append_predictions` with deduplication (where the
appended batch is the deduplicated survivors). -/
theorem claim_C8_append_sort_eq_overwrite :
    (∀ (f : FileContent) (m : List Record) (f' : FileContent),
      f.head? = some MAPPINGS_HEADER → append_true_mappings f m true = some f' →
      ∃ old, load_mappings f = some old ∧
        write_true_mappings (old ++ m) = some f') ∧
    (∀ (fT fF fP : FileContent) (m : List Record) (f' : FileContent),
      fP.head? = some PREDICTIONS_HEADER →
      append_predictions fT fF fP m false true = some f' →
      ∃ old, load_predictions fP = some old ∧
        write_predictions (old ++ m) = some f') ∧
    (∀ (fT fF fP : FileContent) (m : List Record) (f' : FileContent),
      fP.head? = some PREDICTIONS_HEADER →
      append_predictions fT fF fP m true true = some f' →
      ∃ ex survivors old, existingTuples fT fF fP = some ex ∧
        dedupFilter ex m = some survivors ∧ load_predictions fP = some old ∧
        write_predictions (old ++ survivors) = some f') := by
  refine ⟨?_, ?_, ?_⟩
  · intro f m f' hhead happ
    simp only [append_true_mappings] at happ
    rcases Option.bind_eq_some.mp happ with ⟨appended, hA, h2⟩
    simp only [if_true] at h2
    have hchain : (_write_helper MAPPINGS_HEADER m f "a").bind (fun appended =>
        (_load_table appended).bind (fun recs => (sortRecords recs).bind
          (fun srt => _write_helper MAPPINGS_HEADER srt [] "w"))) = some f' :=
      Option.bind_eq_some.mpr ⟨appended, hA, h2⟩
    exact append_sort_eq_write (by decide) (by decide) hhead hchain
  · intro fT fF fP m f' hhead happ
    simp only [append_predictions] at happ
    rw [if_neg (by simp)] at happ
    rcases Option.bind_eq_some.mp happ with ⟨survivors, hsv, h2⟩
    obtain rfl : m = survivors := Option.some_inj.mp hsv
    rcases Option.bind_eq_some.mp h2 with ⟨appended, hA, h3⟩
    rw [if_pos trivial] at h3
    have hchain : (_write_helper PREDICTIONS_HEADER m fP "a").bind (fun appended =>
        (_load_table appended).bind (fun recs => (sortRecords recs).bind
          (fun srt => _write_helper PREDICTIONS_HEADER srt [] "w"))) = some f' :=
      Option.bind_eq_some.mpr ⟨appended, hA, h3⟩
    exact append_sort_eq_write (by decide) (by decide) hhead hchain
  · intro fT fF fP m f' hhead happ
    simp only [append_predictions] at happ
    rw [if_pos trivial] at happ
    rcases Option.bind_eq_some.mp happ with ⟨ex, hex, h2⟩
    rcases Option.bind_eq_some.mp h2 with ⟨survivors, hsurv, h3⟩
    rcases Option.bind_eq_some.mp h3 with ⟨appended, hA, h4⟩
    rw [if_pos trivial] at h4
    have hchain : (_write_helper PREDICTIONS_HEADER survivors fP "a").bind
        (fun appended => (_load_table appended).bind (fun recs =>
          (sortRecords recs).bind
            (fun srt => _write_helper PREDICTIONS_HEADER srt [] "w"))) = some f' :=
      Option.bind_eq_some.mpr ⟨appended, hA, h4⟩
    rcases append_sort_eq_write (by decide) (by decide) hhead hchain
      with ⟨old, hold, hw⟩
    exact ⟨ex, survivors, old, hex, hsurv, hold, hw⟩

/-- Witness for C8 at concrete inputs: appending one record with `sort=True`
to a one-row table ends in the same file as the single sorted overwrite of
old-plus-batch, on all three paths. -/
theorem claim_C8_append_sort_eq_overwrite_witness :
    (∃ old, load_mappings [MAPPINGS_HEADER,
        ["b", "1", "c", "d", "e", "2", "f", "g", "h"]] = some old ∧
      write_true_mappings (old ++
        [MAPPINGS_HEADER.zip ["a", "1", "c", "d", "e", "2", "f", "g", "h"]]) =
        some [MAPPINGS_HEADER,
          ["a", "1", "c", "d", "e", "2", "f", "g", "h"],
          ["b", "1", "c", "d", "e", "2", "f", "g", "h"]]) ∧
    (∃ old, load_predictions [PREDICTIONS_HEADER,
        ["b", "1", "c", "d", "e", "2", "f", "g", "0.9", "h"]] = some old ∧
      write_predictions (old ++
        [PREDICTIONS_HEADER.zip ["a", "1", "c", "d", "e", "2", "f", "g", "0.9", "h"]]) =
        some [PREDICTIONS_HEADER,
          ["a", "1", "c", "d", "e", "2", "f", "g", "0.9", "h"],
          ["b", "1", "c", "d", "e", "2", "f", "g", "0.9", "h"]]) ∧
    (∃ ex survivors old,
      existingTuples [MAPPINGS_HEADER] [MAPPINGS_HEADER]
        [PREDICTIONS_HEADER, ["b", "1", "c", "d", "e", "2", "f", "g", "0.9", "h"]] =
        some ex ∧
      dedupFilter ex
        [PREDICTIONS_HEADER.zip ["a", "1", "c", "d", "e", "2", "f", "g", "0.9", "h"]] =
        some survivors ∧
      load_predictions [PREDICTIONS_HEADER,
        ["b", "1", "c", "d", "e", "2", "f", "g", "0.9", "h"]] = some old ∧
      write_predictions (old ++ survivors) =
        some [PREDICTIONS_HEADER,
          ["a", "1", "c", "d", "e", "2", "f", "g", "0.9", "h"],
          ["b", "1", "c", "d", "e", "2", "f", "g", "0.9", "h"]]) := by
  refine ⟨?_, ?_, ?_⟩
  · exact claim_C8_append_sort_eq_overwrite.1
      [MAPPINGS_HEADER, ["b", "1", "c", "d", "e", "2", "f", "g", "h"]]
      [MAPPINGS_HEADER.zip ["a", "1", "c", "d", "e", "2", "f", "g", "h"]]
      _ rfl rfl
  · exact claim_C8_append_sort_eq_overwrite.2.1
      [MAPPINGS_HEADER] [MAPPINGS_HEADER]
      [PREDICTIONS_HEADER, ["b", "1", "c", "d", "e", "2", "f", "g", "0.9", "h"]]
      [PREDICTIONS_HEADER.zip ["a", "1", "c", "d", "e", "2", "f", "g", "0.9", "h"]]
      _ rfl rfl
  · exact claim_C8_append_sort_eq_overwrite.2.2
      [MAPPINGS_HEADER] [MAPPINGS_HEADER]
      [PREDICTIONS_HEADER, ["b", "1", "c", "d", "e", "2", "f", "g", "0.9", "h"]]
      [PREDICTIONS_HEADER.zip ["a", "1", "c", "d", "e", "2", "f", "g", "0.9", "h"]]
      _ rfl rfl

theorem dedupFilter_cons_eq_some {ex : List (List String)} {m : Record}
    {rest out : List Record} :
    dedupFilter ex (m :: rest) = some out ↔
      ∃ k tail, get_canonical_tuple m = some k ∧ dedupFilter ex rest = some tail ∧
        out = if ex.contains k then tail else m :: tail := by
  constructor
  · intro h
    rcases Option.bind_eq_some.mp h with ⟨k, hk, h2⟩
    rcases Option.bind_eq_some.mp h2 with ⟨tail, ht, h3⟩
    exact ⟨k, tail, hk, ht, (Option.some_inj.mp h3).symm⟩
  · rintro ⟨k, tail, hk, ht, rfl⟩
    simp [dedupFilter, hk, ht]

theorem dedupFilter_append {ex : List (List String)} :
    ∀ l₁ l₂ : List Record, dedupFilter ex (l₁ ++ l₂) =
      (dedupFilter ex l₁).bind (fun s₁ =>
        (dedupFilter ex l₂).map (fun s₂ => s₁ ++ s₂)) := by
  intro l₁ l₂
  induction l₁ with
  | nil =>
    simp only [List.nil_append]
    cases h : dedupFilter ex l₂ <;> simp [dedupFilter, h]
  | cons m t ih =>
    cases hk : get_canonical_tuple m with
    | none => simp [dedupFilter, hk]
    | some k =>
      cases ht : dedupFilter ex t with
      | none =>
        have h2 : dedupFilter ex (t ++ l₂) = none := by rw [ih, ht]; rfl
        simp [dedupFilter, hk, ht, h2]
      | some s₁ =>
        cases hl₂ : dedupFilter ex l₂ with
        | none =>
          have h2 : dedupFilter ex (t ++ l₂) = none := by rw [ih, ht, hl₂]; rfl
          simp [dedupFilter, hk, ht, hl₂, h2]
        | some s₂ =>
          have h2 : dedupFilter ex (t ++ l₂) = some (s₁ ++ s₂) := by
            rw [ih, ht, hl₂]; rfl
          by_cases hc : k ∈ ex
          · simp [dedupFilter, hk, ht, hl₂, h2, hc]
          · simp [dedupFilter, hk, ht, hl₂, h2, hc]

theorem dedupFilter_keys {ex : List (List String)} :
    ∀ {l surv : List Record}, dedupFilter ex l = some surv →
      ∀ m ∈ surv, ∃ km, get_canonical_tuple m = some km ∧
        ex.contains km = false := by
  intro l
  induction l with
  | nil =>
    intro surv h m hm
    cases h
    cases hm
  | cons p t ih =>
    intro surv h m hm
    rcases dedupFilter_cons_eq_some.mp h with ⟨k, tail, hk, htail, rfl⟩
    cases hc : ex.contains k with
    | true =>
      rw [hc] at hm
      simp only [if_true] at hm
      exact ih htail m hm
    | false =>
      rw [hc] at hm
      simp only [Bool.false_eq_true, if_false] at hm
      rcases List.mem_cons.mp hm with rfl | hmt
      · exact ⟨k, hk, hc⟩
      · exact ih htail m hmt

/-- Claim C10: the prediction-append deduplication checks incoming records
only against the pre-existing tables, not against each other: if two records
in the same `append_predictions` call (with `deduplicate=True`) share a
canonical key that is absent from the union of the three consulted tables,
both are appended — the appended row segment contains at least two rows with
that canonical key. -/
theorem claim_C10_no_within_batch_dedup :
    ∀ (fT fF fP : FileContent) (l₁ l₂ l₃ : List Record) (m₁ m₂ : Record)
      (k : List String) (ex : List (List String)) (f' : FileContent),
      existingTuples fT fF fP = some ex →
      get_canonical_tuple m₁ = some k →
      get_canonical_tuple m₂ = some k →
      ex.contains k = false →
      append_predictions fT fF fP (l₁ ++ m₁ :: l₂ ++ m₂ :: l₃) true false = some f' →
      ∃ rows', f' = fP ++ rows' ∧
        2 ≤ rows'.countP (fun row =>
          mapping_sort_key (PREDICTIONS_HEADER.zip row) == some k) := by
  intro fT fF fP l₁ l₂ l₃ m₁ m₂ k ex f' hex hk₁ hk₂ hfresh happ
  simp only [append_predictions] at happ
  rw [if_pos trivial] at happ
  rcases Option.bind_eq_some.mp happ with ⟨ex', hex', h2⟩
  obtain rfl : ex = ex' := Option.some_inj.mp (hex.symm.trans hex')
  rcases Option.bind_eq_some.mp h2 with ⟨survivors, hsurv, h3⟩
  rcases Option.bind_eq_some.mp h3 with ⟨appended, hA, h4⟩
  rw [if_neg (by simp)] at h4
  obtain rfl : f' = appended := (Option.some_inj.mp h4).symm
  rcases write_helper_some_inv hA with ⟨kr, hkr, hf⟩
  have hf' : f' = fP ++ (stableSort pairLE kr).map Prod.snd := by simpa using hf
  refine ⟨(stableSort pairLE kr).map Prod.snd, hf', ?_⟩
  rw [dedupFilter_append] at hsurv
  rcases Option.bind_eq_some.mp hsurv with ⟨sA, hsA, hmap⟩
  rcases Option.map_eq_some'.mp hmap with ⟨oB, hoB, heqS⟩
  rcases dedupFilter_cons_eq_some.mp hoB with ⟨k₂', t₂, hk₂', ht₂, hoBeq⟩
  obtain rfl : k = k₂' := Option.some_inj.mp (hk₂.symm.trans hk₂')
  have hoB' : oB = m₂ :: t₂ := by rw [hoBeq, hfresh]; simp
  subst hoB'
  rw [dedupFilter_append] at hsA
  rcases Option.bind_eq_some.mp hsA with ⟨s₁, hs₁, hmapA⟩
  rcases Option.map_eq_some'.mp hmapA with ⟨o₁, ho₁, heqA⟩
  rcases dedupFilter_cons_eq_some.mp ho₁ with ⟨k₁', t₁, hk₁', ht₁, ho₁eq⟩
  obtain rfl : k = k₁' := Option.some_inj.mp (hk₁.symm.trans hk₁')
  have ho₁' : o₁ = m₁ :: t₁ := by rw [ho₁eq, hfresh]; simp
  subst ho₁'
  have hsurv' : survivors = (s₁ ++ m₁ :: t₁) ++ m₂ :: t₂ := by
    rw [← heqS, ← heqA]
  have hcount : 2 ≤ survivors.countP (fun r => get_canonical_tuple r == some k) := by
    subst hsurv'
    simp only [List.countP_append, List.countP_cons, hk₁, hk₂, beq_self_eq_true,
      if_true]
    omega
  have hc1 : survivors.countP (fun r => get_canonical_tuple r == some k) =
      kr.countP (fun q => (some q.1 : Option (List String)) == some k) := by
    refine forall₂_countP_eq ?_ (keyedRows_eq_some_iff.mp hkr)
    intro r q hrq
    have hcanon : get_canonical_tuple r = mapping_sort_key r := rfl
    rw [hcanon, hrq.1]
  have hc2 : kr.countP (fun q => (some q.1 : Option (List String)) == some k) =
      (stableSort pairLE kr).countP
        (fun q => (some q.1 : Option (List String)) == some k) :=
    ((stableSort_perm pairLE kr).countP_eq _).symm
  have hc3 : ((stableSort pairLE kr).map Prod.snd).countP
      (fun row => mapping_sort_key (PREDICTIONS_HEADER.zip row) == some k) =
      (stableSort pairLE kr).countP
        (fun q => (some q.1 : Option (List String)) == some k) := by
    rw [List.countP_map]
    refine List.countP_congr ?_
    intro q hq
    rcases keyedRows_mem_witness hkr q ((stableSort_perm pairLE kr).mem_iff.mp hq)
      with ⟨r, _, hkey, hproj⟩
    simp only [Function.comp]
    rw [mapping_sort_key_zip (by decide) (by decide) hproj, hkey]
  rw [hc3, ← hc2, ← hc1]
  exact hcount

/-- Witness for C10 at a concrete input: appending the same fresh record
twice in one call appends two rows with its canonical key. -/
theorem claim_C10_no_within_batch_dedup_witness :
    ∃ rows', ([PREDICTIONS_HEADER,
        ["a", "1", "c", "d", "e", "2", "f", "g", "0.9", "h"],
        ["a", "1", "c", "d", "e", "2", "f", "g", "0.9", "h"]] : FileContent) =
      [PREDICTIONS_HEADER] ++ rows' ∧
      2 ≤ rows'.countP (fun row =>
        mapping_sort_key (PREDICTIONS_HEADER.zip row) ==
          some ["a", "1", "d", "e", "2", "g", "h"]) := by
  refine claim_C10_no_within_batch_dedup [MAPPINGS_HEADER] [MAPPINGS_HEADER]
    [PREDICTIONS_HEADER] [] [] []
    (PREDICTIONS_HEADER.zip ["a", "1", "c", "d", "e", "2", "f", "g", "0.9", "h"])
    (PREDICTIONS_HEADER.zip ["a", "1", "c", "d", "e", "2", "f", "g", "0.9", "h"])
    ["a", "1", "d", "e", "2", "g", "h"] [] _ rfl rfl rfl rfl rfl

/-- Counterexample to C1 as stated: the incoming prediction's canonical key is
already present in the union (it is the key of a record already in the
predictions table), the incoming record is dropped, and yet that record is
*present* in the predictions table after the call — it was there before.  So
"is absent from the predictions table after the call" fails when the
duplicate key comes from the predictions table itself. -/
theorem claim_C1_counterexample :
    existingTuples [MAPPINGS_HEADER] [MAPPINGS_HEADER]
      [PREDICTIONS_HEADER, ["a", "1", "c", "d", "e", "2", "f", "g", "0.9", "h"]] =
      some [["a", "1", "d", "e", "2", "g", "h"]] ∧
    get_canonical_tuple (PREDICTIONS_HEADER.zip
      ["a", "1", "c", "d", "e", "2", "f", "g", "0.9", "h"]) =
      some ["a", "1", "d", "e", "2", "g", "h"] ∧
    append_predictions [MAPPINGS_HEADER] [MAPPINGS_HEADER]
      [PREDICTIONS_HEADER, ["a", "1", "c", "d", "e", "2", "f", "g", "0.9", "h"]]
      [PREDICTIONS_HEADER.zip ["a", "1", "c", "d", "e", "2", "f", "g", "0.9", "h"]]
      true false =
      some [PREDICTIONS_HEADER, ["a", "1", "c", "d", "e", "2", "f", "g", "0.9", "h"]] ∧
    (PREDICTIONS_HEADER.zip ["a", "1", "c", "d", "e", "2", "f", "g", "0.9", "h"]) ∈
      ((_load_table [PREDICTIONS_HEADER,
        ["a", "1", "c", "d", "e", "2", "f", "g", "0.9", "h"]]).getD []) :=
  ⟨rfl, rfl, rfl, by simp [_load_table]⟩

/-- Claim C1 (amended): with `deduplicate=True`, every incoming record whose
canonical key is already present in the union of the true-mappings,
false-mappings and predictions tables is dropped — no record with such a key
is newly appended, so the number of records carrying that key in the
predictions table is unchanged by the call (in particular, if no record with
that key was in the predictions table before, none is after). -/
theorem claim_C1_dedup_no_new_duplicates :
    ∀ (fT fF fP : FileContent) (batch : List Record) (so : Bool) (f' : FileContent),
      fP.head? = some PREDICTIONS_HEADER →
      append_predictions fT fF fP batch true so = some f' →
      ∃ ex recsP recs', existingTuples fT fF fP = some ex ∧
        _load_table fP = some recsP ∧ _load_table f' = some recs' ∧
        ∀ m ∈ batch, ∀ k, get_canonical_tuple m = some k → ex.contains k = true →
          recs'.countP (fun r => get_canonical_tuple r == some k) =
            recsP.countP (fun r => get_canonical_tuple r == some k) := by
  intro fT fF fP batch so f' hhead happ
  obtain ⟨rowsP, rfl⟩ : ∃ rowsP, fP = PREDICTIONS_HEADER :: rowsP := by
    cases fP with
    | nil => cases hhead
    | cons h₀ rows =>
      refine ⟨rows, ?_⟩
      rw [show h₀ = PREDICTIONS_HEADER from by simpa using hhead]
  simp only [append_predictions] at happ
  rw [if_pos trivial] at happ
  rcases Option.bind_eq_some.mp happ with ⟨ex, hex, h2⟩
  rcases Option.bind_eq_some.mp h2 with ⟨survivors, hsurv, h3⟩
  rcases Option.bind_eq_some.mp h3 with ⟨appended, hA, h4⟩
  rcases write_helper_some_inv hA with ⟨kr, hkr, hfA⟩
  have hfA' : appended = PREDICTIONS_HEADER ::
      (rowsP ++ (stableSort pairLE kr).map Prod.snd) := by
    simpa using hfA
  subst hfA'
  have hkeysNotIn : ∀ q ∈ stableSort pairLE kr,
      get_canonical_tuple (PREDICTIONS_HEADER.zip q.2) = some q.1 ∧
      ex.contains q.1 = false := by
    intro q hq
    rcases keyedRows_mem_witness hkr q ((stableSort_perm pairLE kr).mem_iff.mp hq)
      with ⟨r, hrs, hkey, hproj⟩
    have hcanonzip : get_canonical_tuple (PREDICTIONS_HEADER.zip q.2) = some q.1 := by
      have he : get_canonical_tuple (PREDICTIONS_HEADER.zip q.2) =
          mapping_sort_key (PREDICTIONS_HEADER.zip q.2) := rfl
      rw [he, mapping_sort_key_zip (by decide) (by decide) hproj, hkey]
    rcases dedupFilter_keys hsurv r hrs with ⟨km, hkm, hkmf⟩
    have hkmq : km = q.1 := by
      have he : get_canonical_tuple r = mapping_sort_key r := rfl
      rw [he, hkey] at hkm
      exact (Option.some_inj.mp hkm).symm
    exact ⟨hcanonzip, hkmq ▸ hkmf⟩
  have hnewzero : ∀ k : List String, ex.contains k = true →
      (((stableSort pairLE kr).map Prod.snd).map
        (fun row => PREDICTIONS_HEADER.zip row)).countP
        (fun r => get_canonical_tuple r == some k) = 0 := by
    intro k hk
    refine List.countP_eq_zero.mpr ?_
    intro a ha
    rcases List.mem_map.mp ha with ⟨row, hrow, rfl⟩
    rcases List.mem_map.mp hrow with ⟨q, hq, rfl⟩
    have h1 := hkeysNotIn q hq
    simp only [h1.1, beq_iff_eq, Option.some_inj]
    intro heq
    rw [← heq] at hk
    rw [h1.2] at hk
    cases hk
  cases so with
  | false =>
    rw [if_neg (by simp)] at h4
    obtain rfl : f' = PREDICTIONS_HEADER ::
        (rowsP ++ (stableSort pairLE kr).map Prod.snd) :=
      (Option.some_inj.mp h4).symm
    refine ⟨ex, rowsP.map (fun row => PREDICTIONS_HEADER.zip row),
      (rowsP ++ (stableSort pairLE kr).map Prod.snd).map
        (fun row => PREDICTIONS_HEADER.zip row), hex, rfl, rfl, ?_⟩
    intro m hm k hkm hcont
    rw [List.map_append, List.countP_append, hnewzero k hcont]
    omega
  | true =>
    rw [if_pos rfl] at h4
    rcases Option.bind_eq_some.mp h4 with ⟨recs₂, hload₂, h5⟩
    rcases Option.bind_eq_some.mp h5 with ⟨srt₂, hsort₂, hw₂⟩
    rcases write_helper_some_inv hw₂ with ⟨kr₂, hkr₂, hf₂⟩
    obtain rfl : f' = PREDICTIONS_HEADER :: (stableSort pairLE kr₂).map Prod.snd := by
      simpa using hf₂
    refine ⟨ex, rowsP.map (fun row => PREDICTIONS_HEADER.zip row),
      ((stableSort pairLE kr₂).map Prod.snd).map
        (fun row => PREDICTIONS_HEADER.zip row), hex, rfl, rfl, ?_⟩
    intro m hm k hkm hcont
    have hrecs₂ : recs₂ = (rowsP ++ (stableSort pairLE kr).map Prod.snd).map
        (fun row => PREDICTIONS_HEADER.zip row) := by
      have h0 : _load_table (PREDICTIONS_HEADER ::
          (rowsP ++ (stableSort pairLE kr).map Prod.snd)) =
          some ((rowsP ++ (stableSort pairLE kr).map Prod.snd).map
            (fun row => PREDICTIONS_HEADER.zip row)) := rfl
      exact (Option.some_inj.mp (h0.symm.trans hload₂)).symm
    have hc3 : (((stableSort pairLE kr₂).map Prod.snd).map
        (fun row => PREDICTIONS_HEADER.zip row)).countP
        (fun r => get_canonical_tuple r == some k) =
        (stableSort pairLE kr₂).countP
          (fun q => (some q.1 : Option (List String)) == some k) := by
      rw [List.countP_map, List.countP_map]
      refine List.countP_congr ?_
      intro q hq
      rcases keyedRows_mem_witness hkr₂ q ((stableSort_perm pairLE kr₂).mem_iff.mp hq)
        with ⟨r, _, hkey, hproj⟩
      simp only [Function.comp]
      have he : get_canonical_tuple (PREDICTIONS_HEADER.zip q.2) =
          mapping_sort_key (PREDICTIONS_HEADER.zip q.2) := rfl
      rw [he, mapping_sort_key_zip (by decide) (by decide) hproj, hkey]
    have hc2 : (stableSort pairLE kr₂).countP
        (fun q => (some q.1 : Option (List String)) == some k) =
        kr₂.countP (fun q => (some q.1 : Option (List String)) == some k) :=
      (stableSort_perm pairLE kr₂).countP_eq _
    have hc1 : kr₂.countP (fun q => (some q.1 : Option (List String)) == some k) =
        srt₂.countP (fun r => get_canonical_tuple r == some k) := by
      refine (forall₂_countP_eq ?_ (keyedRows_eq_some_iff.mp hkr₂)).symm
      intro r q hrq
      have he : get_canonical_tuple r = mapping_sort_key r := rfl
      rw [he, hrq.1]
    have hc0 : srt₂.countP (fun r => get_canonical_tuple r == some k) =
        recs₂.countP (fun r => get_canonical_tuple r == some k) :=
      (sortRecords_perm hsort₂).countP_eq _
    rw [hc3, hc2, hc1, hc0, hrecs₂, List.map_append, List.countP_append,
      hnewzero k hcont]
    omega

/-- Witness for the amended C1 at a concrete input: re-appending a record
already in the predictions table does not change the number of records
carrying its canonical key. -/
theorem claim_C1_dedup_no_new_duplicates_witness :
    ∃ ex recsP recs',
      existingTuples [MAPPINGS_HEADER] [MAPPINGS_HEADER]
        [PREDICTIONS_HEADER, ["a", "1", "c", "d", "e", "2", "f", "g", "0.9", "h"]] =
        some ex ∧
      _load_table [PREDICTIONS_HEADER,
        ["a", "1", "c", "d", "e", "2", "f", "g", "0.9", "h"]] = some recsP ∧
      _load_table [PREDICTIONS_HEADER,
        ["a", "1", "c", "d", "e", "2", "f", "g", "0.9", "h"]] = some recs' ∧
      ∀ m ∈ [PREDICTIONS_HEADER.zip
          ["a", "1", "c", "d", "e", "2", "f", "g", "0.9", "h"]],
        ∀ k, get_canonical_tuple m = some k → ex.contains k = true →
          recs'.countP (fun r => get_canonical_tuple r == some k) =
            recsP.countP (fun r => get_canonical_tuple r == some k) :=
  claim_C1_dedup_no_new_duplicates [MAPPINGS_HEADER] [MAPPINGS_HEADER]
    [PREDICTIONS_HEADER, ["a", "1", "c", "d", "e", "2", "f", "g", "0.9", "h"]]
    [PREDICTIONS_HEADER.zip ["a", "1", "c", "d", "e", "2", "f", "g", "0.9", "h"]]
    false
    [PREDICTIONS_HEADER, ["a", "1", "c", "d", "e", "2", "f", "g", "0.9", "h"]]
    rfl rfl
